import Mathlib

/-!
Verification development for the resolution engine and pipeline orchestration
of the build tool, together with its remote-connection specification object.

The definitions below are shallow embeddings of the Python sources:

* `Resolver.resolve_element` / `Resolver.resolve_source` and the `Pipeline`
  class from `buildstream/_pipeline.py`.  Python object identity of the
  description nodes (`MetaElement`, `MetaSource`) is modelled by a numeric
  identity tag carried on each node; the memo dictionary `resolved_elements`
  keyed by object identity becomes an association list keyed by that tag.
  Runtime `Element` / `Source` instances live in an explicit store inside
  `RState`, with reference identity modelled by store keys; the factory
  `create` calls and list `append` mutations are recorded in an event trace
  so that invocation counts and relative order are observable.

* `RemoteSpec.open_channel` and `RemoteSpec.__eq__` / `__hash__` from
  `buildstream/_remotespec.py`.  Python's builtin `hash` is an opaque
  parameter; `urlparse` is external, so `open_channel` consumes the parsed
  form of the spec's URL.

Methods of the plugin-provided `Element` class (`dependencies`,
`_inconsistent`, `_refresh`, `preflight`) are not part of the repository
sources; they are modelled from the spec, as marked on their definitions.
-/

deriving instance DecidableEq for Except

/-- A `SourceDescription` node: identity tag, kind string and opaque
configuration, as produced by the loader (`MetaSource` in the code). -/
inductive MetaSource where
  | mk (sid : Nat) (kind : String) (config : String)
deriving DecidableEq, Repr

/-- A `ComponentDescription` node (`MetaElement` in the code): identity tag,
kind, ordered runtime-dependency list (`dependencies` in the code), ordered
build-dependency list, and ordered source list. -/
inductive MetaElement where
  | mk (nid : Nat) (kind : String)
       (dependencies : List MetaElement)
       (build_dependencies : List MetaElement)
       (sources : List MetaSource)
deriving Repr

def MetaElement.nid : MetaElement → Nat
  | .mk n _ _ _ _ => n

def MetaElement.kind : MetaElement → String
  | .mk _ k _ _ _ => k

def MetaElement.dependencies : MetaElement → List MetaElement
  | .mk _ _ d _ _ => d

def MetaElement.build_dependencies : MetaElement → List MetaElement
  | .mk _ _ _ b _ => b

def MetaElement.sources : MetaElement → List MetaSource
  | .mk _ _ _ _ s => s

def MetaSource.sid : MetaSource → Nat
  | .mk s _ _ => s

def MetaSource.kind : MetaSource → String
  | .mk _ k _ => k

def MetaSource.config : MetaSource → String
  | .mk _ _ c => c

/-- Observable actions of the resolver: factory `create` invocations and the
`append` mutations performed on an element's dependency and source lists. -/
inductive Event where
  | createElement (nid : Nat) (kind : String)
  | createSource (sid : Nat) (kind : String)
  | appendRuntime (parent : Nat) (child : Nat)
  | appendBuild (parent : Nat) (child : Nat)
  | appendSource (parent : Nat) (src : Nat)
deriving DecidableEq, Repr

/-- The mutable data of one runtime `Element` instance: its kind and the
`__runtime_dependencies`, `__build_dependencies` and `__sources` lists that
`resolve_element` appends to. -/
structure ElemData where
  kind : String
  runtime_dependencies : List Nat
  build_dependencies : List Nat
  sources : List Nat
deriving DecidableEq, Repr

/-- The data of one runtime `Source` instance created by the source factory. -/
structure SourceData where
  kind : String
  config : String
  fromSid : Nat
deriving DecidableEq, Repr

/-- Resolver state: the `resolved_elements` memo dictionary, the store of
`Element` instances (keys model reference identity), the store of `Source`
instances, fresh-identity counters and the event trace. -/
structure RState where
  memo : List (Nat × Nat)
  elems : List (Nat × ElemData)
  nextElem : Nat
  srcs : List (Nat × SourceData)
  nextSrc : Nat
  events : List Event
deriving DecidableEq, Repr

/-- First-match association-list lookup, the model of a Python dict read. -/
def assocFind {β : Type} (k : Nat) : List (Nat × β) → Option β
  | [] => none
  | (k', v) :: rest => if k = k' then some v else assocFind k rest

/-- Apply a mutation to the element instance stored under key `eid`. -/
def updateElem (l : List (Nat × ElemData)) (eid : Nat) (g : ElemData → ElemData) :
    List (Nat × ElemData) :=
  l.map (fun p => if p.1 = eid then (p.1, g p.2) else p)

/-- The kind-keyed factories.  Only success or failure of `create` for a
given kind is relevant to the resolver; an unknown kind fails. -/
structure Factories where
  elementOk : String → Bool
  sourceOk : String → Bool

def initState : RState := ⟨[], [], 0, [], 0, []⟩

/-- The state change performed by a fresh-node `resolve_element` before it
recurses: the factory creates an empty element (recorded in the trace) and
the memo entry is inserted, both before any dependency or source is
resolved. -/
def allocState (st : RState) (n : Nat) (kind : String) : RState :=
  { memo := (n, st.nextElem) :: st.memo
    elems := st.elems ++ [(st.nextElem, ⟨kind, [], [], []⟩)]
    nextElem := st.nextElem + 1
    srcs := st.srcs
    nextSrc := st.nextSrc
    events := st.events ++ [.createElement n kind] }

/-- The `append` of one resolved dependency onto element `eid`'s runtime
(`rt = true`) or build (`rt = false`) dependency list. -/
def appendDepState (st : RState) (eid did : Nat) (rt : Bool) : RState :=
  { st with
    elems := updateElem st.elems eid (fun dd =>
      if rt then { dd with runtime_dependencies := dd.runtime_dependencies ++ [did] }
      else { dd with build_dependencies := dd.build_dependencies ++ [did] })
    events := st.events ++ [if rt then Event.appendRuntime eid did else Event.appendBuild eid did] }

/-- The `append` of one resolved source onto element `eid`'s source list. -/
def appendSrcState (st : RState) (eid sid : Nat) : RState :=
  { st with
    elems := updateElem st.elems eid (fun dd => { dd with sources := dd.sources ++ [sid] })
    events := st.events ++ [Event.appendSource eid sid] }

/-- Embeds `Resolver.resolve_source`: always constructs a fresh `Source` through the
source factory, never consulting any memo; factory failure propagates. -/
def resolve_source (f : Factories) (st : RState) (ms : MetaSource) :
    Except String (Nat × RState) :=
  match ms with
  | .mk sid kind config =>
    if f.sourceOk kind then
      .ok (st.nextSrc, { st with
        srcs := st.srcs ++ [(st.nextSrc, ⟨kind, config, sid⟩)]
        nextSrc := st.nextSrc + 1
        events := st.events ++ [.createSource sid kind] })
    else .error ("PluginError: source kind " ++ kind)

/-- The `for meta_source in meta_element.sources` loop of `resolve_element`:
each resolved source is appended to the element's `__sources` list. -/
def resolve_src_list (f : Factories) (st : RState) (eid : Nat) :
    List MetaSource → Except String RState
  | [] => .ok st
  | ms :: rest =>
    match resolve_source f st ms with
    | .error e => .error e
    | .ok (sid, st') => resolve_src_list f (appendSrcState st' eid sid) eid rest

mutual

/-- Embeds `Resolver.resolve_element`: return the memoized element if the node is
already in `resolved_elements`; otherwise create a fresh element through the
factory, insert it into the memo, then resolve runtime dependencies
(`meta_element.dependencies`), then build dependencies, then sources,
appending each result to the corresponding list of the element. -/
def resolve_element (f : Factories) (st : RState) : MetaElement → Except String (Nat × RState)
  | .mk nid kind deps bdeps srcs =>
    match assocFind nid st.memo with
    | some eid => .ok (eid, st)
    | none =>
      if f.elementOk kind then
        match resolve_elem_list f (allocState st nid kind) st.nextElem true deps with
        | .error e => .error e
        | .ok st2 =>
          match resolve_elem_list f st2 st.nextElem false bdeps with
          | .error e => .error e
          | .ok st3 =>
            match resolve_src_list f st3 st.nextElem srcs with
            | .error e => .error e
            | .ok st4 => .ok (st.nextElem, st4)
      else .error ("PluginError: element kind " ++ kind)

/-- One of the two dependency loops of `resolve_element`: resolve each entry
in order and append the result to the runtime (`rt = true`) or build
(`rt = false`) dependency list of element `eid`. -/
def resolve_elem_list (f : Factories) (st : RState) (eid : Nat) (rt : Bool) :
    List MetaElement → Except String RState
  | [] => .ok st
  | d :: ds =>
    match resolve_element f st d with
    | .error e => .error e
    | .ok (did, st') => resolve_elem_list f (appendDepState st' eid did rt) eid rt ds

end

/-- The parent element of an `append` event, if the event is one. -/
def evtParent : Event → Option Nat
  | .appendRuntime p _ => some p
  | .appendBuild p _ => some p
  | .appendSource p _ => some p
  | _ => none

/-- The description-node identity of a `createElement` event, if it is one. -/
def evtCreateNid : Event → Option Nat
  | .createElement n _ => some n
  | _ => none

/-- Identities of the nodes for which the element factory has been invoked,
in invocation order. -/
def createdNids (st : RState) : List Nat :=
  st.events.filterMap evtCreateNid

/-- The element instance memoized for a description node (0 as a dummy when
the node has not been resolved; all uses are guarded by membership). -/
def memoId (st : RState) (n : MetaElement) : Nat :=
  (assocFind n.nid st.memo).getD 0

/-- The `Source` data the factory builds from a source description. -/
def srcDataOf : MetaSource → SourceData
  | .mk sid kind config => ⟨kind, config, sid⟩

/-- Structural invariant of resolver states: store keys are allocated
consecutively, the memo is injective with in-range values, the trace of
factory invocations matches the memo, event parents are in range, dependency
lists mention only allocated elements, and the source lists of all elements
are globally disjoint with in-range entries. -/
structure StInv (st : RState) : Prop where
  elemKeys : st.elems.map Prod.fst = List.range st.nextElem
  srcKeys : st.srcs.map Prod.fst = List.range st.nextSrc
  memoNodup : (st.memo.map Prod.fst).Nodup
  memoVals : ∀ kv ∈ st.memo, kv.2 < st.nextElem
  evMemo : st.events.filterMap evtCreateNid = (st.memo.map Prod.fst).reverse
  evParents : ∀ ev ∈ st.events, ∀ p, evtParent ev = some p → p < st.nextElem
  depIds : ∀ p ∈ st.elems, ∀ i,
    (i ∈ p.2.runtime_dependencies ∨ i ∈ p.2.build_dependencies) → i < st.nextElem
  srcIdsNodup : (st.elems.flatMap (fun p => p.2.sources)).Nodup
  srcIdsBound : ∀ p ∈ st.elems, ∀ s ∈ p.2.sources, s < st.nextSrc

theorem assocFind_nil {β : Type} (k : Nat) : assocFind k ([] : List (Nat × β)) = none := rfl

theorem assocFind_cons {β : Type} (k k' : Nat) (v : β) (rest : List (Nat × β)) :
    assocFind k ((k', v) :: rest) = if k = k' then some v else assocFind k rest := rfl

theorem updateElem_cons (k' : Nat) (v : ElemData) (rest : List (Nat × ElemData)) (eid : Nat)
    (g : ElemData → ElemData) :
    updateElem ((k', v) :: rest) eid g =
      (if k' = eid then (k', g v) else (k', v)) :: updateElem rest eid g := by
  by_cases h : k' = eid <;> simp [updateElem, h]

theorem assocFind_none_iff {β : Type} (k : Nat) (l : List (Nat × β)) :
    assocFind k l = none ↔ k ∉ l.map Prod.fst := by
  induction l with
  | nil => simp [assocFind]
  | cons p rest ih =>
    obtain ⟨k', v⟩ := p
    by_cases h : k = k'
    · subst h; simp [assocFind]
    · simp [assocFind, h, ih]

theorem assocFind_isSome_iff {β : Type} (k : Nat) (l : List (Nat × β)) :
    (assocFind k l).isSome ↔ k ∈ l.map Prod.fst := by
  rcases h : assocFind k l with _ | v
  · rw [assocFind_none_iff] at h; simp [h]
  · have : ¬ assocFind k l = none := by simp [h]
    rw [assocFind_none_iff] at this
    simp [h, not_not.mp this]

theorem assocFind_append_of_some {β : Type} {k : Nat} {l₁ l₂ : List (Nat × β)} {v : β}
    (h : assocFind k l₁ = some v) : assocFind k (l₁ ++ l₂) = some v := by
  induction l₁ with
  | nil => simp [assocFind] at h
  | cons p rest ih =>
    obtain ⟨k', w⟩ := p
    by_cases hk : k = k'
    · subst hk
      simp [assocFind] at h ⊢
      exact h
    · simp [assocFind, hk] at h ⊢
      exact ih h

theorem assocFind_append_of_none {β : Type} {k : Nat} {l₁ : List (Nat × β)} (l₂ : List (Nat × β))
    (h : assocFind k l₁ = none) : assocFind k (l₁ ++ l₂) = assocFind k l₂ := by
  induction l₁ with
  | nil => simp
  | cons p rest ih =>
    obtain ⟨k', w⟩ := p
    by_cases hk : k = k'
    · subst hk; simp [assocFind] at h
    · simp [assocFind, hk] at h ⊢
      exact ih h

theorem assocFind_updateElem (l : List (Nat × ElemData)) (eid i : Nat) (g : ElemData → ElemData) :
    assocFind i (updateElem l eid g) =
      if i = eid then (assocFind eid l).map g else assocFind i l := by
  induction l with
  | nil => by_cases h : i = eid <;> simp [updateElem, assocFind, h]
  | cons p rest ih =>
    obtain ⟨k', v⟩ := p
    by_cases hk : k' = eid
    · subst hk
      rw [updateElem_cons, if_pos rfl]
      by_cases hi : i = k'
      · subst hi; simp [assocFind]
      · simp [assocFind, hi, ih]
    · rw [updateElem_cons, if_neg hk]
      by_cases hik : i = k'
      · subst hik
        have hi : ¬ i = eid := hk
        simp [assocFind, hi]
      · by_cases hi : i = eid
        · subst hi
          simp [assocFind, hik, ih]
        · simp [assocFind, hik, hi, ih]

theorem updateElem_keys (l : List (Nat × ElemData)) (eid : Nat) (g : ElemData → ElemData) :
    (updateElem l eid g).map Prod.fst = l.map Prod.fst := by
  induction l with
  | nil => rfl
  | cons p rest ih =>
    by_cases h : p.1 = eid <;> simp [updateElem, h] at ih ⊢ <;> exact ih

theorem updateElem_of_not_mem (l : List (Nat × ElemData)) (eid : Nat) (g : ElemData → ElemData)
    (h : ∀ p ∈ l, p.1 ≠ eid) : updateElem l eid g = l := by
  induction l with
  | nil => rfl
  | cons p rest ih =>
    have hp : p.1 ≠ eid := h p (by simp)
    simp [updateElem, hp]
    have := ih (fun q hq => h q (by simp [hq]))
    simpa [updateElem] using this

theorem assocFind_split {β : Type} {k : Nat} {l : List (Nat × β)} {v : β}
    (hnd : (l.map Prod.fst).Nodup) (h : assocFind k l = some v) :
    ∃ a b, l = a ++ (k, v) :: b ∧ (∀ p ∈ a, p.1 ≠ k) ∧ (∀ p ∈ b, p.1 ≠ k) := by
  induction l with
  | nil => simp [assocFind] at h
  | cons p rest ih =>
    obtain ⟨k', w⟩ := p
    rw [List.map_cons, List.nodup_cons] at hnd
    by_cases hk : k = k'
    · subst hk
      rw [assocFind_cons, if_pos rfl] at h
      obtain rfl : w = v := by injection h
      refine ⟨[], rest, by simp, by simp, ?_⟩
      intro p hp hpk
      exact hnd.1 (List.mem_map.mpr ⟨p, hp, hpk⟩)
    · rw [assocFind_cons, if_neg hk] at h
      obtain ⟨a, b, hab, ha, hb⟩ := ih hnd.2 h
      refine ⟨(k', w) :: a, b, by simp [hab], ?_, hb⟩
      intro p hp
      rcases List.mem_cons.mp hp with h1 | h1
      · subst h1; exact fun hc => hk hc.symm
      · exact ha p h1

theorem updateElem_split (a b : List (Nat × ElemData)) (eid : Nat) (v : ElemData)
    (g : ElemData → ElemData) (ha : ∀ p ∈ a, p.1 ≠ eid) (hb : ∀ p ∈ b, p.1 ≠ eid) :
    updateElem (a ++ (eid, v) :: b) eid g = a ++ (eid, g v) :: b := by
  have h1 : updateElem a eid g = a := updateElem_of_not_mem a eid g ha
  have h2 : updateElem b eid g = b := updateElem_of_not_mem b eid g hb
  simp only [updateElem, List.map_append, List.map_cons] at h1 h2 ⊢
  rw [h1, h2]
  simp

theorem updateElem_flatMap_sources (l : List (Nat × ElemData)) (eid : Nat)
    (g : ElemData → ElemData) (hg : ∀ d, (g d).sources = d.sources) :
    (updateElem l eid g).flatMap (fun p => p.2.sources) = l.flatMap (fun p => p.2.sources) := by
  induction l with
  | nil => rfl
  | cons p rest ih =>
    by_cases h : p.1 = eid <;> simp [updateElem, h, hg] at ih ⊢ <;> exact ih

theorem updateElem_mem {l : List (Nat × ElemData)} {eid : Nat} {g : ElemData → ElemData}
    {p' : Nat × ElemData} (h : p' ∈ updateElem l eid g) :
    ∃ p ∈ l, p' = p ∨ p' = (p.1, g p.2) := by
  obtain ⟨p, hp, he⟩ := List.mem_map.mp h
  by_cases hc : p.1 = eid
  · rw [if_pos hc] at he; exact ⟨p, hp, Or.inr he.symm⟩
  · rw [if_neg hc] at he; exact ⟨p, hp, Or.inl he.symm⟩

theorem assocFind_mem {β : Type} {k : Nat} {l : List (Nat × β)} {v : β}
    (h : assocFind k l = some v) : (k, v) ∈ l := by
  induction l with
  | nil => simp [assocFind] at h
  | cons p rest ih =>
    obtain ⟨k', w⟩ := p
    by_cases hk : k = k'
    · subst hk
      rw [assocFind_cons, if_pos rfl] at h
      obtain rfl : w = v := by injection h
      simp
    · rw [assocFind_cons, if_neg hk] at h
      simp [ih h]

theorem assocFind_append_single {β : Type} {i k : Nat} (l : List (Nat × β)) (v : β)
    (h : i ≠ k) : assocFind i (l ++ [(k, v)]) = assocFind i l := by
  rcases hf : assocFind i l with _ | w
  · rw [assocFind_append_of_none _ hf, assocFind_cons, if_neg h, assocFind_nil]
  · exact assocFind_append_of_some hf

theorem assocFind_self_append {β : Type} {k : Nat} {l : List (Nat × β)} (v : β)
    (h : assocFind k l = none) : assocFind k (l ++ [(k, v)]) = some v := by
  rw [assocFind_append_of_none _ h, assocFind_cons, if_pos rfl]

theorem assocFind_isSome_of_lt {st : RState} (inv : StInv st) {eid : Nat}
    (h : eid < st.nextElem) : (assocFind eid st.elems).isSome := by
  rw [assocFind_isSome_iff, inv.elemKeys, List.mem_range]
  exact h

/-- Conclusions common to every resolver step about how the state evolves. -/
structure ROut (st st' : RState) : Prop where
  inv : StInv st'
  elemLe : st.nextElem ≤ st'.nextElem
  srcLe : st.nextSrc ≤ st'.nextSrc
  memoMono : ∀ k v, assocFind k st.memo = some v → assocFind k st'.memo = some v
  srcsPres : ∀ s, s < st.nextSrc → assocFind s st'.srcs = assocFind s st.srcs
  evSeg : ∃ seg, st'.events = st.events ++ seg

/-- What `resolve_element` guarantees for the element built for a fresh
(not-yet-memoized) description node: its kind comes from the node, its
dependency lists are exactly the memoized resolutions of the node's lists in
declaration order, and its source list corresponds one-to-one and in order
to the node's source descriptions, with pairwise distinct source instances. -/
def FreshData (st' : RState) (me : MetaElement) (r : Nat) : Prop :=
  ∃ d, assocFind r st'.elems = some d ∧
    d.kind = me.kind ∧
    d.runtime_dependencies = me.dependencies.map (memoId st') ∧
    d.build_dependencies = me.build_dependencies.map (memoId st') ∧
    (∀ dep ∈ me.dependencies, (assocFind dep.nid st'.memo).isSome = true) ∧
    (∀ dep ∈ me.build_dependencies, (assocFind dep.nid st'.memo).isSome = true) ∧
    List.Forall₂ (fun sid ms => assocFind sid st'.srcs = some (srcDataOf ms)) d.sources me.sources ∧
    d.sources.Nodup

/-- Full conclusion of the master theorem for `resolve_element`. -/
structure REOut (st : RState) (me : MetaElement) (r : Nat) (st' : RState) extends ROut st st' :
    Prop where
  memoAfter : assocFind me.nid st'.memo = some r
  rLt : r < st'.nextElem
  elemsPres : ∀ i, i < st.nextElem → assocFind i st'.elems = assocFind i st.elems
  segParents : ∀ seg, st'.events = st.events ++ seg →
    ∀ ev ∈ seg, ∀ p, evtParent ev = some p → st.nextElem ≤ p ∧ p < st'.nextElem
  freshCase : assocFind me.nid st.memo = none →
    r = st.nextElem ∧ FreshData st' me r ∧
    ∃ pre post, st'.events = pre ++ post ∧
      (∀ ev ∈ pre, ∀ c, ev ≠ Event.appendBuild r c) ∧
      (∀ ev ∈ post, ∀ c, ev ≠ Event.appendRuntime r c)

/-- Full conclusion of the master theorem for `resolve_elem_list`. -/
structure RELOut (st : RState) (eid : Nat) (rt : Bool) (l : List MetaElement) (st' : RState)
    extends ROut st st' : Prop where
  elemsPres : ∀ i, i < st.nextElem → i ≠ eid → assocFind i st'.elems = assocFind i st.elems
  depsResolved : ∀ dep ∈ l, (assocFind dep.nid st'.memo).isSome = true
  dataUpd : ∀ d0, assocFind eid st.elems = some d0 →
    assocFind eid st'.elems = some (if rt then
      { d0 with runtime_dependencies := d0.runtime_dependencies ++ l.map (memoId st') }
    else
      { d0 with build_dependencies := d0.build_dependencies ++ l.map (memoId st') })
  segParents : ∀ seg, st'.events = st.events ++ seg →
    ∀ ev ∈ seg, ∀ p, evtParent ev = some p →
      (st.nextElem ≤ p ∧ p < st'.nextElem) ∨
      (p = eid ∧ ((rt = true ∧ ∃ c, ev = Event.appendRuntime eid c) ∨
                  (rt = false ∧ ∃ c, ev = Event.appendBuild eid c)))

/-- Full conclusion of the master theorem for `resolve_src_list`. -/
structure RSLOut (st : RState) (eid : Nat) (l : List MetaSource) (st' : RState) : Prop where
  inv : StInv st'
  memoEq : st'.memo = st.memo
  nextElemEq : st'.nextElem = st.nextElem
  srcLe : st.nextSrc ≤ st'.nextSrc
  srcsPres : ∀ s, s < st.nextSrc → assocFind s st'.srcs = assocFind s st.srcs
  elemsPres : ∀ i, i ≠ eid → assocFind i st'.elems = assocFind i st.elems
  dataUpd : ∀ d0, assocFind eid st.elems = some d0 →
    ∃ ids, assocFind eid st'.elems = some { d0 with sources := d0.sources ++ ids } ∧
      ids.Nodup ∧ (∀ s ∈ ids, st.nextSrc ≤ s ∧ s < st'.nextSrc) ∧
      List.Forall₂ (fun sid ms => assocFind sid st'.srcs = some (srcDataOf ms)) ids l
  evSeg : ∃ seg, st'.events = st.events ++ seg ∧
    ∀ ev ∈ seg, (∃ s k, ev = Event.createSource s k) ∨ (∃ s, ev = Event.appendSource eid s)

theorem StInv_init : StInv initState := by
  constructor <;> simp [initState]

theorem StInv_alloc {st : RState} (inv : StInv st) {nid : Nat} {kind : String}
    (hn : assocFind nid st.memo = none) :
    StInv (allocState st nid kind) := by
  rw [assocFind_none_iff] at hn
  unfold allocState
  constructor
  · simp [inv.elemKeys, List.range_succ]
  · exact inv.srcKeys
  · simp [List.nodup_cons, hn, inv.memoNodup]
  · intro kv hkv
    rcases List.mem_cons.mp hkv with h | h
    · subst h; simp
    · exact Nat.lt_succ_of_lt (inv.memoVals kv h)
  · simp [List.filterMap_append, inv.evMemo, evtCreateNid]
  · intro ev hev p hp
    rcases List.mem_append.mp hev with h | h
    · exact Nat.lt_succ_of_lt (inv.evParents ev h p hp)
    · simp at h; subst h; simp [evtParent] at hp
  · intro p hp i hi
    rcases List.mem_append.mp hp with h | h
    · exact Nat.lt_succ_of_lt (inv.depIds p h i hi)
    · simp at h; subst h; simp at hi
  · simpa using inv.srcIdsNodup
  · intro p hp s hs
    rcases List.mem_append.mp hp with h | h
    · exact inv.srcIdsBound p h s hs
    · simp at h; subst h; simp at hs

theorem StInv_append_dep {st : RState} (inv : StInv st) {eid did : Nat}
    (he : eid < st.nextElem) (hd : did < st.nextElem) (rt : Bool) :
    StInv (appendDepState st eid did rt) := by
  unfold appendDepState
  constructor
  · dsimp only
    simp [updateElem_keys, inv.elemKeys]
  · exact inv.srcKeys
  · exact inv.memoNodup
  · exact inv.memoVals
  · dsimp only
    rw [List.filterMap_append]
    have h0 : List.filterMap evtCreateNid
        [if rt then Event.appendRuntime eid did else Event.appendBuild eid did] = [] := by
      cases rt <;> simp [evtCreateNid]
    rw [h0, List.append_nil]
    exact inv.evMemo
  · dsimp only
    intro ev hev p hp
    rcases List.mem_append.mp hev with h | h
    · exact inv.evParents ev h p hp
    · simp at h; subst h
      cases rt <;> simp [evtParent] at hp <;> omega
  · dsimp only
    intro p hp i hi
    obtain ⟨q, hq, hcase⟩ := updateElem_mem hp
    rcases hcase with h | h
    · rw [h] at hi; exact inv.depIds q hq i hi
    · rw [h] at hi
      cases rt with
      | true =>
        simp at hi
        rcases hi with (hi' | hi') | hi'
        · exact inv.depIds q hq i (Or.inl hi')
        · subst hi'; exact hd
        · exact inv.depIds q hq i (Or.inr hi')
      | false =>
        simp at hi
        rcases hi with hi' | (hi' | hi')
        · exact inv.depIds q hq i (Or.inl hi')
        · exact inv.depIds q hq i (Or.inr hi')
        · subst hi'; exact hd
  · dsimp only
    have hg : ∀ d : ElemData, ((fun dd : ElemData =>
        if rt then { dd with runtime_dependencies := dd.runtime_dependencies ++ [did] }
        else { dd with build_dependencies := dd.build_dependencies ++ [did] }) d).sources
          = d.sources := by
      intro d; cases rt <;> simp
    rw [updateElem_flatMap_sources _ _ _ hg]
    exact inv.srcIdsNodup
  · dsimp only
    intro p hp s hs
    obtain ⟨q, hq, hcase⟩ := updateElem_mem hp
    rcases hcase with h | h
    · rw [h] at hs; exact inv.srcIdsBound q hq s hs
    · rw [h] at hs
      have : s ∈ q.2.sources := by cases rt <;> simpa using hs
      exact inv.srcIdsBound q hq s this

theorem resolve_source_ok {f : Factories} {st : RState} {ms : MetaSource} {sid : Nat} {st' : RState}
    (h : resolve_source f st ms = .ok (sid, st')) :
    sid = st.nextSrc ∧ f.sourceOk ms.kind = true ∧
    st' = { st with srcs := st.srcs ++ [(st.nextSrc, srcDataOf ms)]
                    nextSrc := st.nextSrc + 1
                    events := st.events ++ [.createSource ms.sid ms.kind] } := by
  obtain ⟨s, k, c⟩ := ms
  simp only [resolve_source] at h
  by_cases hk : f.sourceOk k = true
  · rw [if_pos hk] at h
    simp only [Except.ok.injEq, Prod.mk.injEq] at h
    obtain ⟨h1, h2⟩ := h
    exact ⟨h1.symm, hk, h2.symm⟩
  · rw [if_neg hk] at h
    cases h

theorem StInv_createSource {st : RState} (inv : StInv st) (d : SourceData) (s : Nat) (k : String) :
    StInv { st with srcs := st.srcs ++ [(st.nextSrc, d)]
                    nextSrc := st.nextSrc + 1
                    events := st.events ++ [Event.createSource s k] } := by
  constructor
  · exact inv.elemKeys
  · dsimp only
    simp [inv.srcKeys, List.range_succ]
  · exact inv.memoNodup
  · exact inv.memoVals
  · dsimp only
    rw [List.filterMap_append]
    simp [evtCreateNid, inv.evMemo]
  · dsimp only
    intro ev hev p hp
    rcases List.mem_append.mp hev with h | h
    · exact inv.evParents ev h p hp
    · simp at h; subst h; simp [evtParent] at hp
  · exact inv.depIds
  · exact inv.srcIdsNodup
  · dsimp only
    intro p hp x hx
    exact Nat.lt_succ_of_lt (inv.srcIdsBound p hp x hx)

theorem StInv_appendSource {st : RState} (inv : StInv st) {eid sid : Nat}
    (he : eid < st.nextElem) (hsB : sid < st.nextSrc)
    (hsF : sid ∉ st.elems.flatMap (fun p => p.2.sources)) :
    StInv (appendSrcState st eid sid) := by
  unfold appendSrcState
  constructor
  · dsimp only
    simp [updateElem_keys, inv.elemKeys]
  · exact inv.srcKeys
  · exact inv.memoNodup
  · exact inv.memoVals
  · dsimp only
    rw [List.filterMap_append]
    simp [evtCreateNid, inv.evMemo]
  · dsimp only
    intro ev hev p hp
    rcases List.mem_append.mp hev with h | h
    · exact inv.evParents ev h p hp
    · simp at h; subst h; simp [evtParent] at hp; omega
  · dsimp only
    intro p hp i hi
    obtain ⟨q, hq, hcase⟩ := updateElem_mem hp
    rcases hcase with h | h <;> rw [h] at hi
    · exact inv.depIds q hq i hi
    · exact inv.depIds q hq i (by simpa using hi)
  · dsimp only
    have hsome := assocFind_isSome_of_lt inv he
    rcases hfind : assocFind eid st.elems with _ | d0
    · rw [hfind] at hsome; simp at hsome
    · have hnd : (st.elems.map Prod.fst).Nodup := by
        rw [inv.elemKeys]; exact List.nodup_range _
      obtain ⟨a, b, hab, ha, hb⟩ := assocFind_split hnd hfind
      rw [hab, updateElem_split a b eid d0 _ ha hb]
      have old : (a.flatMap (fun p => p.2.sources) ++
          (d0.sources ++ b.flatMap (fun p => p.2.sources))).Nodup := by
        have h0 := inv.srcIdsNodup
        rw [hab] at h0
        simpa using h0
      have hnot : sid ∉ a.flatMap (fun p => p.2.sources) ++
          (d0.sources ++ b.flatMap (fun p => p.2.sources)) := by
        rw [hab] at hsF
        simpa using hsF
      have h2 : a.flatMap (fun p => p.2.sources) ++
            ((d0.sources ++ [sid]) ++ b.flatMap (fun p => p.2.sources))
          = (a.flatMap (fun p => p.2.sources) ++ d0.sources) ++
            sid :: b.flatMap (fun p => p.2.sources) := by
        simp
      have hres : (a.flatMap (fun p => p.2.sources) ++
          ((d0.sources ++ [sid]) ++ b.flatMap (fun p => p.2.sources))).Nodup := by
        rw [h2, List.nodup_middle, List.nodup_cons]
        constructor
        · simpa using hnot
        · simpa using old
      simpa using hres
  · dsimp only
    intro p hp x hx
    obtain ⟨q, hq, hcase⟩ := updateElem_mem hp
    rcases hcase with h | h <;> rw [h] at hx
    · exact inv.srcIdsBound q hq x hx
    · simp at hx
      rcases hx with hx | hx
      · exact inv.srcIdsBound q hq x hx
      · subst hx; exact hsB

theorem resolve_src_list_master (f : Factories) :
    ∀ (l : List MetaSource) (st : RState) (eid : Nat) (st' : RState),
      resolve_src_list f st eid l = .ok st' → StInv st → eid < st.nextElem →
      RSLOut st eid l st' := by
  intro l
  induction l with
  | nil =>
    intro st eid st' h inv he
    have hst : st = st' := by
      simp only [resolve_src_list] at h
      injection h
    subst hst
    refine ⟨inv, rfl, rfl, le_refl _, fun s _ => rfl, fun i _ => rfl, ?_, ⟨[], by simp, by simp⟩⟩
    intro d0 h0
    exact ⟨[], by simpa using h0, by simp, by simp, List.Forall₂.nil⟩
  | cons ms rest ih =>
    intro st eid st' h inv he
    rcases hr : resolve_source f st ms with e | p
    · simp only [resolve_src_list] at h
      rw [hr] at h
      cases h
    · obtain ⟨sid, stA0⟩ := p
      simp only [resolve_src_list] at h
      rw [hr] at h
      dsimp only at h
      obtain ⟨hsid, hok, hstA⟩ := resolve_source_ok hr
      subst hsid
      subst hstA
      set stA : RState := { st with
        srcs := st.srcs ++ [(st.nextSrc, srcDataOf ms)]
        nextSrc := st.nextSrc + 1
        events := st.events ++ [Event.createSource ms.sid ms.kind] } with hstAdef
      set stB : RState := appendSrcState stA eid st.nextSrc with hstB
      have invA : StInv stA := StInv_createSource inv (srcDataOf ms) ms.sid ms.kind
      have hnotmem : (st.nextSrc : Nat) ∉ st.elems.flatMap (fun p => p.2.sources) := by
        intro hmem
        obtain ⟨q, hq, hx⟩ := List.mem_flatMap.mp hmem
        exact absurd (inv.srcIdsBound q hq _ hx) (by omega)
      have invB : StInv stB := by
        rw [hstB]
        exact @StInv_appendSource stA invA eid st.nextSrc
          (by simpa [hstAdef] using he) (by simp [hstAdef]) (by simpa [hstAdef] using hnotmem)
      have hBelems : stB.elems = updateElem st.elems eid
          (fun dd => { dd with sources := dd.sources ++ [st.nextSrc] }) := by
        simp [hstB, hstAdef, appendSrcState]
      have hBmemo : stB.memo = st.memo := by simp [hstB, hstAdef, appendSrcState]
      have hBnextElem : stB.nextElem = st.nextElem := by simp [hstB, hstAdef, appendSrcState]
      have hBnextSrc : stB.nextSrc = st.nextSrc + 1 := by simp [hstB, hstAdef, appendSrcState]
      have hBsrcs : stB.srcs = st.srcs ++ [(st.nextSrc, srcDataOf ms)] := by
        simp [hstB, hstAdef, appendSrcState]
      have hBevents : stB.events = st.events ++
          [Event.createSource ms.sid ms.kind, Event.appendSource eid st.nextSrc] := by
        simp [hstB, hstAdef, appendSrcState]
      have heB : eid < stB.nextElem := by rw [hBnextElem]; exact he
      have R := ih stB eid st' h invB heB
      have hsrcB : assocFind st.nextSrc stB.srcs = some (srcDataOf ms) := by
        rw [hBsrcs]
        have h0 : assocFind st.nextSrc st.srcs = none := by
          rw [assocFind_none_iff, inv.srcKeys, List.mem_range]
          omega
        exact assocFind_self_append (srcDataOf ms) h0
      refine ⟨R.inv, ?_, ?_, ?_, ?_, ?_, ?_, ?_⟩
      · rw [R.memoEq, hBmemo]
      · rw [R.nextElemEq, hBnextElem]
      · have h0 := R.srcLe
        rw [hBnextSrc] at h0
        omega
      · intro s hs
        rw [R.srcsPres s (by rw [hBnextSrc]; omega), hBsrcs]
        exact assocFind_append_single st.srcs (srcDataOf ms) (by omega)
      · intro i hi
        rw [R.elemsPres i hi, hBelems]
        rw [assocFind_updateElem, if_neg hi]
      · intro d0 h0
        have h1 : assocFind eid stB.elems
            = some { d0 with sources := d0.sources ++ [st.nextSrc] } := by
          rw [hBelems, assocFind_updateElem, if_pos rfl, h0]
          rfl
        obtain ⟨ids, hfound, hnd, hbounds, hfa⟩ := R.dataUpd _ h1
        refine ⟨st.nextSrc :: ids, ?_, ?_, ?_, ?_⟩
        · rw [hfound]
          simp
        · rw [List.nodup_cons]
          refine ⟨fun hmem => ?_, hnd⟩
          have h2 := (hbounds _ hmem).1
          rw [hBnextSrc] at h2
          omega
        · intro s hs
          rcases List.mem_cons.mp hs with h2 | h2
          · subst h2
            refine ⟨le_refl _, ?_⟩
            calc st.nextSrc < stB.nextSrc := by rw [hBnextSrc]; omega
              _ ≤ st'.nextSrc := R.srcLe
          · have h3 := hbounds s h2
            rw [hBnextSrc] at h3
            exact ⟨by omega, h3.2⟩
        · refine List.Forall₂.cons ?_ hfa
          rw [R.srcsPres _ (by rw [hBnextSrc]; omega)]
          exact hsrcB
      · obtain ⟨segR, hsegR, hcharR⟩ := R.evSeg
        refine ⟨[Event.createSource ms.sid ms.kind, Event.appendSource eid st.nextSrc] ++ segR, ?_, ?_⟩
        · rw [hsegR, hBevents]
          simp
        · intro ev hev
          rcases List.mem_append.mp hev with h2 | h2
          · rcases List.mem_cons.mp h2 with h3 | h3
            · exact Or.inl ⟨ms.sid, ms.kind, h3⟩
            · simp at h3
              exact Or.inr ⟨st.nextSrc, h3⟩
          · exact hcharR ev h2

theorem map_memoId_congr {stX stY : RState} (l : List MetaElement)
    (hsome : ∀ dep ∈ l, (assocFind dep.nid stX.memo).isSome = true)
    (hmono : ∀ k v, assocFind k stX.memo = some v → assocFind k stY.memo = some v) :
    l.map (memoId stX) = l.map (memoId stY) := by
  induction l with
  | nil => rfl
  | cons d ds ih =>
    have h1 : (assocFind d.nid stX.memo).isSome = true := hsome d (by simp)
    rcases hv : assocFind d.nid stX.memo with _ | v
    · rw [hv] at h1; simp at h1
    · have hY := hmono _ _ hv
      rw [List.map_cons, List.map_cons, ih (fun dep hdep => hsome dep (by simp [hdep]))]
      have h2 : memoId stX d = memoId stY d := by simp [memoId, hv, hY]
      rw [h2]

theorem resolve_element_master (f : Factories) :
    ∀ (st : RState) (me : MetaElement) (r : Nat) (st' : RState),
      resolve_element f st me = .ok (r, st') → StInv st → REOut st me r st' := by
  have main : ∀ (st : RState) (me : MetaElement),
      ∀ r st', resolve_element f st me = .ok (r, st') → StInv st → REOut st me r st' := by
    refine resolve_element.induct f
      (fun st me => ∀ r st', resolve_element f st me = .ok (r, st') → StInv st → REOut st me r st')
      (fun st eid rt l => ∀ st', resolve_elem_list f st eid rt l = .ok st' → StInv st →
        eid < st.nextElem → RELOut st eid rt l st')
      ?_ ?_ ?_ ?_ ?_ ?_ ?_ ?_ ?_
    · -- memoized node: the existing element is returned, state unchanged
      intro st n kind deps bdeps srcs eid hmemo r st' h inv
      simp only [resolve_element, hmemo, Except.ok.injEq, Prod.mk.injEq] at h
      obtain ⟨rfl, rfl⟩ := h
      refine ⟨⟨inv, le_refl _, le_refl _, fun k v hv => hv, fun s _ => rfl, ⟨[], by simp⟩⟩,
        hmemo, inv.memoVals _ (assocFind_mem hmemo), fun i _ => rfl, ?_, ?_⟩
      · intro seg hseg ev hev p hp
        have h0 : st.events ++ seg = st.events ++ [] := by simpa using hseg.symm
        have hseg0 := List.append_cancel_left h0
        subst hseg0
        simp at hev
      · intro hc
        simp only [MetaElement.nid] at hc
        rw [hc] at hmemo
        simp at hmemo
    · -- fresh node, runtime-dependency loop fails
      intro st n kind deps bdeps srcs hnone hOk e herr _ r st' h inv
      simp only [resolve_element, hnone, hOk, if_true, herr] at h
      exact Except.noConfusion h
    · -- fresh node, build-dependency loop fails
      intro st n kind deps bdeps srcs hnone hOk st2 h1 e herr _ _ r st' h inv
      simp only [resolve_element, hnone, hOk, if_true, h1, herr] at h
      exact Except.noConfusion h
    · -- fresh node, source loop fails
      intro st n kind deps bdeps srcs hnone hOk st2 h1 st3 h2 e herr _ _ r st' h inv
      simp only [resolve_element, hnone, hOk, if_true, h1, h2, herr] at h
      exact Except.noConfusion h
    · -- fresh node, fully resolved
      intro st n kind deps bdeps srcs hnone hOk st2 h1 st3 h2 st4 h3 ihA ihB r st' h inv
      simp only [resolve_element, hnone, hOk, if_true, h1, h2, h3,
        Except.ok.injEq, Prod.mk.injEq] at h
      obtain ⟨rfl, rfl⟩ := h
      set stA : RState := allocState st n kind with hA
      have invA : StInv stA := StInv_alloc inv hnone
      have hAne : stA.nextElem = st.nextElem + 1 := by simp [hA, allocState]
      have hAns : stA.nextSrc = st.nextSrc := by simp [hA, allocState]
      have hAmemo : stA.memo = (n, st.nextElem) :: st.memo := by simp [hA, allocState]
      have hAsrcs : stA.srcs = st.srcs := by simp [hA, allocState]
      have hAelems : stA.elems = st.elems ++ [(st.nextElem, ⟨kind, [], [], []⟩)] := by
        simp [hA, allocState]
      have hAev : stA.events = st.events ++ [Event.createElement n kind] := by
        simp [hA, allocState]
      have heA : st.nextElem < stA.nextElem := by omega
      have R1 := ihA st2 h1 invA heA
      have c1 : stA.nextElem ≤ st2.nextElem := R1.elemLe
      have heB : st.nextElem < st2.nextElem := by omega
      have R2 := ihB st3 h2 R1.inv heB
      have c2 : st2.nextElem ≤ st3.nextElem := R2.elemLe
      have heC : st.nextElem < st3.nextElem := by omega
      have R3 := resolve_src_list_master f srcs st3 st.nextElem st4 h3 R2.inv heC
      have c3 : st4.nextElem = st3.nextElem := R3.nextElemEq
      have s1 : stA.nextSrc ≤ st2.nextSrc := R1.srcLe
      have s2 : st2.nextSrc ≤ st3.nextSrc := R2.srcLe
      have s3 : st3.nextSrc ≤ st4.nextSrc := R3.srcLe
      have hmA : assocFind n stA.memo = some st.nextElem := by
        rw [hAmemo, assocFind_cons, if_pos rfl]
      have hm2 : assocFind n st2.memo = some st.nextElem := R1.memoMono _ _ hmA
      have hm3 : assocFind n st3.memo = some st.nextElem := R2.memoMono _ _ hm2
      have hm4 : assocFind n st4.memo = some st.nextElem := by
        rw [R3.memoEq]; exact hm3
      have mono24 : ∀ k v, assocFind k st2.memo = some v → assocFind k st4.memo = some v := by
        intro k v hv
        rw [R3.memoEq]
        exact R2.memoMono _ _ hv
      have mono34 : ∀ k v, assocFind k st3.memo = some v → assocFind k st4.memo = some v := by
        intro k v hv
        rw [R3.memoEq]
        exact hv
      have memoMono4 : ∀ k v, assocFind k st.memo = some v → assocFind k st4.memo = some v := by
        intro k v hv
        have hkn : k ≠ n := by
          intro hc
          rw [hc, hnone] at hv
          exact Option.noConfusion hv
        have hvA : assocFind k stA.memo = some v := by
          rw [hAmemo, assocFind_cons, if_neg hkn]
          exact hv
        exact mono24 _ _ (R1.memoMono _ _ hvA)
      have elemsPres4 : ∀ i, i < st.nextElem → assocFind i st4.elems = assocFind i st.elems := by
        intro i hi
        have h4 : assocFind i st4.elems = assocFind i st3.elems :=
          R3.elemsPres i (by omega)
        have h5 : assocFind i st3.elems = assocFind i st2.elems :=
          R2.elemsPres i (by omega) (by omega)
        have h6 : assocFind i st2.elems = assocFind i stA.elems :=
          R1.elemsPres i (by omega) (by omega)
        have h7 : assocFind i stA.elems = assocFind i st.elems := by
          rw [hAelems]
          exact assocFind_append_single _ _ (by omega)
        rw [h4, h5, h6, h7]
      have srcsPres4 : ∀ s, s < st.nextSrc → assocFind s st4.srcs = assocFind s st.srcs := by
        intro s hs
        have h4 := R3.srcsPres s (by omega)
        have h5 := R2.srcsPres s (by omega)
        have h6 := R1.srcsPres s (by omega)
        rw [h4, h5, h6, hAsrcs]
      obtain ⟨seg1, hseg1⟩ := R1.evSeg
      obtain ⟨seg2, hseg2⟩ := R2.evSeg
      obtain ⟨seg3, hseg3, hchar3⟩ := R3.evSeg
      have hdec : st4.events = st.events ++
          ([Event.createElement n kind] ++ seg1 ++ seg2 ++ seg3) := by
        rw [hseg3, hseg2, hseg1, hAev]
        simp
      refine ⟨⟨R3.inv, by omega, by omega, memoMono4, srcsPres4,
          ⟨[Event.createElement n kind] ++ seg1 ++ seg2 ++ seg3, hdec⟩⟩, hm4, by omega,
          elemsPres4, ?_, ?_⟩
      · intro seg hseg ev hev p hp
        have hx : st.events ++ seg = st.events ++
            ([Event.createElement n kind] ++ seg1 ++ seg2 ++ seg3) := by
          rw [← hseg]; exact hdec
        have hseg0 := List.append_cancel_left hx
        subst hseg0
        rcases List.mem_append.mp hev with h9 | h9
        · rcases List.mem_append.mp h9 with h8 | h8
          · rcases List.mem_append.mp h8 with h7 | h7
            · simp at h7
              subst h7
              simp [evtParent] at hp
            · have hres := R1.segParents seg1 hseg1 ev h7 p hp
              rcases hres with ⟨hb1, hb2⟩ | ⟨hpe, _⟩
              · exact ⟨by omega, by omega⟩
              · exact ⟨by omega, by omega⟩
          · have hres := R2.segParents seg2 hseg2 ev h8 p hp
            rcases hres with ⟨hb1, hb2⟩ | ⟨hpe, _⟩
            · exact ⟨by omega, by omega⟩
            · exact ⟨by omega, by omega⟩
        · have hres := hchar3 ev h9
          rcases hres with ⟨s, k, hek⟩ | ⟨s, hek⟩
          · subst hek
            simp [evtParent] at hp
          · subst hek
            simp [evtParent] at hp
            exact ⟨by omega, by omega⟩
      · intro _
        refine ⟨rfl, ?_, ?_⟩
        · have hfA : assocFind st.nextElem stA.elems = some ⟨kind, [], [], []⟩ := by
            rw [hAelems]
            apply assocFind_self_append
            rw [assocFind_none_iff, inv.elemKeys, List.mem_range]
            omega
          have hf2 := R1.dataUpd _ hfA
          simp only [if_true, List.nil_append] at hf2
          have hf3 := R2.dataUpd _ hf2
          simp only [Bool.false_eq_true, if_false, List.nil_append] at hf3
          obtain ⟨ids, hf4, hnd, hbounds, hfa⟩ := R3.dataUpd _ hf3
          simp only [List.nil_append] at hf4
          refine ⟨⟨kind, deps.map (memoId st2), bdeps.map (memoId st3), ids⟩, hf4, rfl,
            ?_, ?_, ?_, ?_, ?_, hnd⟩
          · show deps.map (memoId st2) = deps.map (memoId st4)
            exact map_memoId_congr deps R1.depsResolved mono24
          · show bdeps.map (memoId st3) = bdeps.map (memoId st4)
            exact map_memoId_congr bdeps R2.depsResolved mono34
          · intro dep hdep
            have h0 := R1.depsResolved dep hdep
            rcases hv : assocFind dep.nid st2.memo with _ | v
            · rw [hv] at h0; simp at h0
            · have h5 := mono24 _ _ hv
              simp [h5]
          · intro dep hdep
            have h0 := R2.depsResolved dep hdep
            rcases hv : assocFind dep.nid st3.memo with _ | v
            · rw [hv] at h0; simp at h0
            · have h5 := mono34 _ _ hv
              simp [h5]
          · exact hfa
        · refine ⟨st.events ++ [Event.createElement n kind] ++ seg1, seg2 ++ seg3, ?_, ?_, ?_⟩
          · rw [hdec]
            simp
          · intro ev hev c heq
            subst heq
            rcases List.mem_append.mp hev with h9 | h9
            · rcases List.mem_append.mp h9 with h8 | h8
              · have := inv.evParents _ h8 st.nextElem (by simp [evtParent])
                omega
              · simp at h8
            · have hres := R1.segParents seg1 hseg1 _ h9 st.nextElem (by simp [evtParent])
              rcases hres with ⟨hb1, _⟩ | ⟨_, hor⟩
              · omega
              · rcases hor with ⟨_, c', hc'⟩ | ⟨hff, _⟩
                · exact Event.noConfusion hc'
                · exact Bool.noConfusion hff
          · intro ev hev c heq
            subst heq
            rcases List.mem_append.mp hev with h9 | h9
            · have hres := R2.segParents seg2 hseg2 _ h9 st.nextElem (by simp [evtParent])
              rcases hres with ⟨hb1, _⟩ | ⟨_, hor⟩
              · omega
              · rcases hor with ⟨hff, _⟩ | ⟨_, c', hc'⟩
                · exact Bool.noConfusion hff
                · exact Event.noConfusion hc'
            · have hres := hchar3 _ h9
              rcases hres with ⟨s, k, hek⟩ | ⟨s, hek⟩
              · exact Event.noConfusion hek
              · exact Event.noConfusion hek
    · -- fresh node, element factory fails
      intro st n kind deps bdeps srcs hnone hOkF r st' h inv
      simp only [resolve_element, hnone] at h
      rw [if_neg hOkF] at h
      cases h
    · -- empty dependency list
      intro st eid rt st' h inv he
      have h0 : st = st' := by
        simp only [resolve_elem_list] at h
        injection h
      subst h0
      refine ⟨⟨inv, le_refl _, le_refl _, fun k v hv => hv, fun s _ => rfl, ⟨[], by simp⟩⟩,
        fun i _ _ => rfl, ?_, ?_, ?_⟩
      · intro dep hdep; simp at hdep
      · intro d0 h0
        cases rt <;> simpa using h0
      · intro seg hseg ev hev p hp
        have h0 : st.events ++ seg = st.events ++ [] := by simpa using hseg.symm
        have hseg0 := List.append_cancel_left h0
        subst hseg0
        simp at hev
    · -- dependency list, head fails
      intro st eid rt d ds e herr _ st' h inv he
      simp only [resolve_elem_list, herr] at h
      exact Except.noConfusion h
    · -- dependency list, head resolved
      intro st eid rt d ds sid stM hre ih1 ih2 st' h inv he
      simp only [resolve_elem_list, hre] at h
      have RE := ih1 sid stM hre inv
      have invM : StInv stM := RE.inv
      have hsidM : sid < stM.nextElem := RE.rLt
      have heM : eid < stM.nextElem := lt_of_lt_of_le he RE.elemLe
      set stMD : RState := appendDepState stM eid sid rt with hMD
      have invMD : StInv stMD := StInv_append_dep invM heM hsidM rt
      have hMDne : stMD.nextElem = stM.nextElem := by simp [hMD, appendDepState]
      have hMDns : stMD.nextSrc = stM.nextSrc := by simp [hMD, appendDepState]
      have hMDmemo : stMD.memo = stM.memo := by simp [hMD, appendDepState]
      have hMDsrcs : stMD.srcs = stM.srcs := by simp [hMD, appendDepState]
      have hMDelems : stMD.elems = updateElem stM.elems eid (fun dd =>
          if rt then { dd with runtime_dependencies := dd.runtime_dependencies ++ [sid] }
          else { dd with build_dependencies := dd.build_dependencies ++ [sid] }) := by
        simp [hMD, appendDepState]
      have hMDev : stMD.events = stM.events ++
          [if rt then Event.appendRuntime eid sid else Event.appendBuild eid sid] := by
        simp [hMD, appendDepState]
      have heMD : eid < stMD.nextElem := by rw [hMDne]; exact heM
      have REL := ih2 st' h invMD heMD
      have c1 : st.nextElem ≤ stM.nextElem := RE.elemLe
      have c2 : stMD.nextElem ≤ st'.nextElem := REL.elemLe
      have c3 : st.nextSrc ≤ stM.nextSrc := RE.srcLe
      have c4 : stMD.nextSrc ≤ st'.nextSrc := REL.srcLe
      have hdFinal : assocFind d.nid st'.memo = some sid := by
        have h0 : assocFind d.nid stMD.memo = some sid := by
          rw [hMDmemo]; exact RE.memoAfter
        exact REL.memoMono _ _ h0
      refine ⟨⟨REL.inv, by omega, by omega, ?_, ?_, ?_⟩, ?_, ?_, ?_, ?_⟩
      · intro k v hv
        exact REL.memoMono k v (by rw [hMDmemo]; exact RE.memoMono k v hv)
      · intro s hs
        have hs2 : s < stMD.nextSrc := by omega
        rw [REL.srcsPres s hs2, hMDsrcs]
        exact RE.srcsPres s hs
      · obtain ⟨segE, hsegE⟩ := RE.evSeg
        obtain ⟨segL, hsegL⟩ := REL.evSeg
        refine ⟨segE ++ [if rt then Event.appendRuntime eid sid else Event.appendBuild eid sid]
          ++ segL, ?_⟩
        rw [hsegL, hMDev, hsegE]
        simp
      · intro i hi hne
        have hi2 : i < stMD.nextElem := by omega
        rw [REL.elemsPres i hi2 hne, hMDelems, assocFind_updateElem, if_neg hne]
        exact RE.elemsPres i hi
      · intro dep hdep
        rcases List.mem_cons.mp hdep with h9 | h9
        · subst h9
          simp [hdFinal]
        · exact REL.depsResolved dep h9
      · intro d0 h0
        have hM0 : assocFind eid stM.elems = some d0 := by
          rw [RE.elemsPres eid he]; exact h0
        have hMD0 : assocFind eid stMD.elems = some (if rt then
            { d0 with runtime_dependencies := d0.runtime_dependencies ++ [sid] }
          else
            { d0 with build_dependencies := d0.build_dependencies ++ [sid] }) := by
          rw [hMDelems, assocFind_updateElem, if_pos rfl, hM0]
          rfl
        have hFin := REL.dataUpd _ hMD0
        rw [hFin]
        have hms : memoId st' d = sid := by simp [memoId, hdFinal]
        cases rt <;> simp [hms]
      · intro seg hseg ev hev p hp
        obtain ⟨segE, hsegE⟩ := RE.evSeg
        obtain ⟨segL, hsegL⟩ := REL.evSeg
        have hdec : st'.events = st.events ++ (segE ++
            [if rt then Event.appendRuntime eid sid else Event.appendBuild eid sid] ++ segL) := by
          rw [hsegL, hMDev, hsegE]
          simp
        have hx : st.events ++ seg = st.events ++ (segE ++
            [if rt then Event.appendRuntime eid sid else Event.appendBuild eid sid] ++ segL) := by
          rw [← hseg]
          exact hdec
        have hseg0 := List.append_cancel_left hx
        subst hseg0
        rcases List.mem_append.mp hev with h9 | h9
        · rcases List.mem_append.mp h9 with hA | hB
          · have hres := RE.segParents segE hsegE ev hA p hp
            left
            constructor
            · exact hres.1
            · have := hres.2
              omega
          · simp at hB
            subst hB
            right
            cases rt with
            | true =>
              simp [evtParent] at hp
              exact ⟨hp.symm, Or.inl ⟨rfl, sid, by simp⟩⟩
            | false =>
              simp [evtParent] at hp
              exact ⟨hp.symm, Or.inr ⟨rfl, sid, by simp⟩⟩
        · have hres := REL.segParents segL hsegL ev h9 p hp
          rcases hres with ⟨hb1, hb2⟩ | hright
          · left
            constructor
            · omega
            · exact hb2
          · exact Or.inr hright
  intro st me r st' h inv
  exact main st me r st' h inv

/-- Traversal scope, as the `Scope` enumeration: ALL follows both edge kinds,
BUILD only build edges, RUN only runtime edges. -/
inductive Scope where
  | ALL
  | BUILD
  | RUN
deriving DecidableEq, Repr

/-- Modelled from the spec: the dependency edges of one element that a
traversal under `scope` follows (`Element.dependencies` is plugin code not
in the repository sources; the element store stands in for the object graph,
and a missing element has no edges). -/
def scopeEdges (st : RState) (scope : Scope) (eid : Nat) : List Nat :=
  match assocFind eid st.elems with
  | none => []
  | some d =>
    match scope with
    | .ALL => d.build_dependencies ++ d.runtime_dependencies
    | .BUILD => d.build_dependencies
    | .RUN => d.runtime_dependencies

/-- Modelled from the spec: the depth-first post-order walk underlying
`Element.dependencies(scope)` — each distinct element is yielded exactly
once, dependencies before dependents.  `fuel` bounds the recursion and is
chosen generously by `elemTraversal`. -/
def dfsGo (st : RState) (scope : Scope) : Nat → List Nat → List Nat → List Nat × List Nat
  | 0, _, vis => ([], vis)
  | _ + 1, [], vis => ([], vis)
  | fuel + 1, r :: rest, vis =>
    if r ∈ vis then dfsGo st scope fuel rest vis
    else
      let cres := dfsGo st scope fuel (scopeEdges st scope r) (r :: vis)
      let rres := dfsGo st scope fuel rest cres.2
      (cres.1 ++ [r] ++ rres.1, rres.2)

/-- Modelled from the spec: `Element.dependencies(scope)` for element `tid`:
the scope-restricted transitive closure, each distinct element exactly once,
in dependency-before-dependent order. -/
def elemTraversal (st : RState) (scope : Scope) (tid : Nat) : List Nat :=
  (dfsGo st scope (1 + st.nextElem +
    (st.elems.flatMap (fun p => p.2.build_dependencies ++ p.2.runtime_dependencies)).length)
    [tid] []).1

/-- A runtime plugin: an element or a source instance, named by store key. -/
inductive Plugin where
  | element (eid : Nat)
  | source (sid : Nat)
deriving DecidableEq, Repr

/-- Behavior of the kind-specific plugin methods, supplied externally:
whether `preflight()` succeeds on a plugin, the result of
`Element._refresh()` (a file-to-serialized-node mapping plus the changed
sources, or an exception), and which sources lack a resolved reference. -/
structure PluginEnv where
  preflightOk : Plugin → Bool
  refreshResult : Nat → Except String (List (String × String) × List Nat)
  inconsistentSrc : Nat → Bool

/-- The `__sources` list of element `eid` (empty for a missing element). -/
def sourceIdsOf (st : RState) (eid : Nat) : List Nat :=
  match assocFind eid st.elems with
  | none => []
  | some d => d.sources

/-- The generator body of `Pipeline.dependencies`: for each element of the
scope traversal, optionally yield its sources first, then the element. -/
def depsWithSources (st : RState) (includeSources : Bool) : List Nat → List Plugin
  | [] => []
  | e :: rest =>
    (if includeSources then (sourceIdsOf st e).map Plugin.source else []) ++
      Plugin.element e :: depsWithSources st includeSources rest

/-- The preflight loop of `Pipeline.__init__`: call `preflight()` on every
plugin in order, aborting at the first failure. -/
def preflightAll (env : PluginEnv) : List Plugin → Except String Unit
  | [] => .ok ()
  | q :: rest =>
    if env.preflightOk q then preflightAll env rest
    else .error "preflight failed"

/-- A fully constructed pipeline: the resolver state and the target element. -/
structure Pipeline where
  st : RState
  target : Nat
deriving DecidableEq, Repr

/-- Embeds `Pipeline.__init__`: the loader supplies the description tree `me`; the
whole graph is resolved from a fresh resolver, then every element and source
in the ALL-scope closure of the target is preflighted right away; any
failure propagates and no `Pipeline` object is produced. -/
def pipelineInit (f : Factories) (env : PluginEnv) (me : MetaElement) :
    Except String Pipeline :=
  match resolve_element f initState me with
  | .error e => .error e
  | .ok (tid, st) =>
    match preflightAll env (depsWithSources st true (elemTraversal st .ALL tid)) with
    | .error e => .error e
    | .ok _ => .ok ⟨st, tid⟩

/-- Embeds `Pipeline.dependencies(scope, include_sources)`. -/
def pipelineDependencies (p : Pipeline) (scope : Scope) (includeSources : Bool) : List Plugin :=
  depsWithSources p.st includeSources (elemTraversal p.st scope p.target)

/-- Modelled from the spec: `Element._inconsistent()` — the subset of the
element's own direct sources that lack a resolved reference. -/
def elemInconsistent (env : PluginEnv) (st : RState) (eid : Nat) : List Nat :=
  (sourceIdsOf st eid).filter (fun s => env.inconsistentSrc s)

/-- The accumulation loop of `Pipeline.inconsistent()`. -/
def inconsistentGo (env : PluginEnv) (st : RState) : List Nat → List Nat → List Nat
  | [], acc => acc
  | e :: rest, acc => inconsistentGo env st rest (acc ++ elemInconsistent env st e)

/-- Embeds `Pipeline.inconsistent()`: accumulate each element's own inconsistent
sources over the ALL-scope traversal. -/
def pipelineInconsistent (env : PluginEnv) (p : Pipeline) : List Nat :=
  inconsistentGo env p.st (elemTraversal p.st .ALL p.target) []

/-- Python dict lookup for string keys. -/
def dictFind (k : String) : List (String × String) → Option String
  | [] => none
  | (k', v) :: rest => if k = k' then some v else dictFind k rest

/-- Insertion into a Python dict: an existing key keeps its position but its
value is replaced; a new key is appended at the end. -/
def dictInsert : List (String × String) → String → String → List (String × String)
  | [], k, v => [(k, v)]
  | (k', w) :: rest, k, v =>
    if k' = k then (k', v) :: rest else (k', w) :: dictInsert rest k v

/-- Embeds `files.update(elt_files)`: insert every entry of `other` in order, so a
later entry for the same key overwrites an earlier one. -/
def dictUpdate (d other : List (String × String)) : List (String × String) :=
  other.foldl (fun acc kv => dictInsert acc kv.1 kv.2) d

/-- First-some choice on options. -/
def orO (a b : Option String) : Option String :=
  match a with
  | some v => some v
  | none => b

/-- The traversal loop of `Pipeline.refresh()`: accumulate changed sources
and merge the per-element file mappings; the first failing `_refresh` aborts
the whole call before anything is written. -/
def refreshGo (env : PluginEnv) : List Nat → List (String × String) → List Nat →
    Except String (List (String × String) × List Nat)
  | [], files, sources => .ok (files, sources)
  | e :: rest, files, sources =>
    match env.refreshResult e with
    | .error err => .error err
    | .ok (eltFs, eltSs) => refreshGo env rest (dictUpdate files eltFs) (sources ++ eltSs)

/-- Embeds `Pipeline.refresh()`: iterate the ALL-scope closure, merge the results,
and only when the whole traversal has succeeded return the merged file
mapping (exactly the files then written to disk) with the changed sources;
on failure nothing is written. -/
def pipelineRefresh (env : PluginEnv) (p : Pipeline) :
    Except String (List (String × String) × List Nat) :=
  refreshGo env (elemTraversal p.st .ALL p.target) [] []

/-- The file mapping `Element._refresh()` returns for element `e` (empty on
failure, where it is never used). -/
def eltFiles (env : PluginEnv) (e : Nat) : List (String × String) :=
  match env.refreshResult e with
  | .ok (ef, _) => ef
  | .error _ => []

/-- The changed sources `Element._refresh()` returns for element `e`. -/
def eltSources (env : PluginEnv) (e : Nat) : List Nat :=
  match env.refreshResult e with
  | .ok (_, es) => es
  | .error _ => []

theorem dfsGo_spec (st : RState) (scope : Scope) :
    ∀ (fuel : Nat) (roots vis : List Nat),
      (dfsGo st scope fuel roots vis).1.Nodup ∧
      (∀ x ∈ (dfsGo st scope fuel roots vis).1, x ∉ vis) ∧
      (∀ x ∈ vis, x ∈ (dfsGo st scope fuel roots vis).2) ∧
      (∀ x ∈ (dfsGo st scope fuel roots vis).1, x ∈ (dfsGo st scope fuel roots vis).2) := by
  intro fuel
  induction fuel with
  | zero => intro roots vis; simp [dfsGo]
  | succ fuel ih =>
    intro roots vis
    cases roots with
    | nil => simp [dfsGo]
    | cons r rest =>
      by_cases hv : r ∈ vis
      · have h0 := ih rest vis
        simpa [dfsGo, hv] using h0
      · have hc := ih (scopeEdges st scope r) (r :: vis)
        obtain ⟨hcN, hcV, hcG, hcIn⟩ := hc
        have hr := ih rest (dfsGo st scope fuel (scopeEdges st scope r) (r :: vis)).2
        obtain ⟨hrN, hrV, hrG, hrIn⟩ := hr
        have hres : dfsGo st scope (fuel + 1) (r :: rest) vis =
            ((dfsGo st scope fuel (scopeEdges st scope r) (r :: vis)).1 ++ [r] ++
              (dfsGo st scope fuel rest
                (dfsGo st scope fuel (scopeEdges st scope r) (r :: vis)).2).1,
              (dfsGo st scope fuel rest
                (dfsGo st scope fuel (scopeEdges st scope r) (r :: vis)).2).2) := by
          simp [dfsGo, hv]
        rw [hres]
        dsimp only
        refine ⟨?_, ?_, ?_, ?_⟩
        · rw [List.nodup_append]
          refine ⟨?_, ?_, ?_⟩
          · rw [List.nodup_append]
            refine ⟨hcN, by simp, ?_⟩
            intro a ha
            simp only [List.mem_singleton]
            intro hae
            subst hae
            exact hcV a ha (by simp)
          · exact hrN
          · intro a ha hb
            rcases List.mem_append.mp ha with h1 | h1
            · exact hrV a hb (hcIn a h1)
            · simp at h1
              subst h1
              exact hrV a hb (hcG a (by simp))
        · intro x hx
          rcases List.mem_append.mp hx with h1 | h1
          · rcases List.mem_append.mp h1 with h2 | h2
            · intro hxv
              exact hcV x h2 (by simp [hxv])
            · simp at h2
              subst h2
              exact hv
          · intro hxv
            exact hrV x h1 (hcG x (by simp [hxv]))
        · intro x hx
          exact hrG x (hcG x (by simp [hx]))
        · intro x hx
          rcases List.mem_append.mp hx with h1 | h1
          · rcases List.mem_append.mp h1 with h2 | h2
            · exact hrG x (hcIn x h2)
            · simp at h2
              subst h2
              exact hrG x (hcG x (by simp))
          · exact hrIn x h1

theorem elemTraversal_nodup (st : RState) (scope : Scope) (tid : Nat) :
    (elemTraversal st scope tid).Nodup :=
  (dfsGo_spec st scope _ [tid] []).1

theorem sourceIdsOf_nodup {st : RState} (inv : StInv st) (e : Nat) :
    (sourceIdsOf st e).Nodup := by
  unfold sourceIdsOf
  rcases hf : assocFind e st.elems with _ | d
  · simp
  · have hnd : (st.elems.map Prod.fst).Nodup := by
      rw [inv.elemKeys]; exact List.nodup_range _
    obtain ⟨a, b, hab, ha, hb⟩ := assocFind_split hnd hf
    have hglobal := inv.srcIdsNodup
    rw [hab] at hglobal
    simp only [List.flatMap_append, List.flatMap_cons] at hglobal
    exact ((hglobal.of_append_right).of_append_left)

theorem sourceIdsOf_disjoint {st : RState} (inv : StInv st) {e1 e2 : Nat} (hne : e1 ≠ e2) :
    ∀ x, x ∈ sourceIdsOf st e1 → x ∉ sourceIdsOf st e2 := by
  intro x hx1 hx2
  unfold sourceIdsOf at hx1 hx2
  rcases h1 : assocFind e1 st.elems with _ | d1 <;> rw [h1] at hx1
  · simp at hx1
  rcases h2 : assocFind e2 st.elems with _ | d2 <;> rw [h2] at hx2
  · simp at hx2
  have hnd : (st.elems.map Prod.fst).Nodup := by
    rw [inv.elemKeys]; exact List.nodup_range _
  obtain ⟨a, b, hab, ha, hb⟩ := assocFind_split hnd h1
  have hglobal := inv.srcIdsNodup
  rw [hab] at hglobal
  simp only [List.flatMap_append, List.flatMap_cons] at hglobal
  have hmem2 : (e2, d2) ∈ a ++ (e1, d1) :: b := by
    rw [← hab]; exact assocFind_mem h2
  have hd2sub : x ∈ a.flatMap (fun p => p.2.sources) ∨
      x ∈ b.flatMap (fun p => p.2.sources) := by
    rcases List.mem_append.mp hmem2 with hin | hin
    · exact Or.inl (List.mem_flatMap.mpr ⟨(e2, d2), hin, hx2⟩)
    · rcases List.mem_cons.mp hin with heq | hin2
      · exfalso
        apply hne.symm
        exact congrArg Prod.fst heq
      · exact Or.inr (List.mem_flatMap.mpr ⟨(e2, d2), hin2, hx2⟩)
  rcases hd2sub with hA | hB
  · have hdisj := (List.nodup_append.mp hglobal).2.2
    exact hdisj hA (List.mem_append.mpr (Or.inl hx1))
  · have hrest := (List.nodup_append.mp hglobal).2.1
    have hdisj := (List.nodup_append.mp hrest).2.2
    exact hdisj hx1 hB

theorem mem_depsWithSources_element {st : RState} {inc : Bool} {l : List Nat} {e : Nat} :
    Plugin.element e ∈ depsWithSources st inc l ↔ e ∈ l := by
  induction l with
  | nil => simp [depsWithSources]
  | cons a rest ih =>
    cases inc <;> simp [depsWithSources, ih]

theorem mem_depsWithSources_source {st : RState} {inc : Bool} {l : List Nat} {s : Nat} :
    Plugin.source s ∈ depsWithSources st inc l ↔
      (inc = true ∧ ∃ e ∈ l, s ∈ sourceIdsOf st e) := by
  induction l with
  | nil => simp [depsWithSources]
  | cons a rest ih =>
    cases inc <;> simp [depsWithSources, ih]

theorem depsWithSources_nodup {st : RState} (inv : StInv st) {l : List Nat} (hl : l.Nodup)
    (inc : Bool) : (depsWithSources st inc l).Nodup := by
  induction l with
  | nil => simp [depsWithSources]
  | cons e rest ih =>
    rw [List.nodup_cons] at hl
    have ihr := ih hl.2
    show ((if inc then (sourceIdsOf st e).map Plugin.source else []) ++
      Plugin.element e :: depsWithSources st inc rest).Nodup
    rw [List.nodup_append]
    refine ⟨?_, ?_, ?_⟩
    · cases inc with
      | false => simp
      | true =>
        simp only [if_true]
        exact (sourceIdsOf_nodup inv e).map (fun x y hxy => by injection hxy)
    · rw [List.nodup_cons]
      refine ⟨?_, ihr⟩
      rw [mem_depsWithSources_element]
      exact hl.1
    · intro q hq hq2
      cases inc with
      | false => simp at hq
      | true =>
        simp only [if_true] at hq
        obtain ⟨s, hs, rfl⟩ := List.mem_map.mp hq
        rcases List.mem_cons.mp hq2 with hbad | hmem
        · exact Plugin.noConfusion hbad
        · obtain ⟨_, e2, he2, hs2⟩ := mem_depsWithSources_source.mp hmem
          have hne : e ≠ e2 := fun hc => hl.1 (hc ▸ he2)
          exact sourceIdsOf_disjoint inv hne s hs hs2

theorem preflightAll_ok_iff (env : PluginEnv) (l : List Plugin) :
    preflightAll env l = .ok () ↔ ∀ q ∈ l, env.preflightOk q = true := by
  induction l with
  | nil => simp [preflightAll]
  | cons q rest ih =>
    by_cases hq : env.preflightOk q = true <;> simp [preflightAll, hq, ih]

theorem dictFind_dictInsert (d : List (String × String)) (k k' v : String) :
    dictFind k' (dictInsert d k v) = if k' = k then some v else dictFind k' d := by
  induction d with
  | nil => by_cases h : k' = k <;> simp [dictInsert, dictFind, h]
  | cons p rest ih =>
    obtain ⟨k1, w⟩ := p
    by_cases h1 : k1 = k
    · subst h1
      by_cases h2 : k' = k1 <;> simp [dictInsert, dictFind, h2]
    · by_cases h2 : k' = k1 <;> simp [dictInsert, dictFind, h1, h2, ih]

theorem dictFind_append (l1 l2 : List (String × String)) (k : String) :
    dictFind k (l1 ++ l2) = orO (dictFind k l1) (dictFind k l2) := by
  induction l1 with
  | nil => simp [dictFind, orO]
  | cons p rest ih =>
    obtain ⟨k1, w⟩ := p
    by_cases h : k = k1 <;> simp [dictFind, h, ih, orO]

theorem orO_assoc (a b c : Option String) : orO (orO a b) c = orO a (orO b c) := by
  cases a <;> simp [orO]

theorem dictFind_dictUpdate (other : List (String × String)) :
    ∀ (d : List (String × String)) (k : String),
      dictFind k (dictUpdate d other) = orO (dictFind k other.reverse) (dictFind k d) := by
  induction other with
  | nil => intro d k; simp [dictUpdate, dictFind, orO]
  | cons kv t ih =>
    intro d k
    obtain ⟨k1, v1⟩ := kv
    have hstep : dictUpdate d ((k1, v1) :: t) = dictUpdate (dictInsert d k1 v1) t := rfl
    rw [hstep, ih]
    rw [List.reverse_cons, dictFind_append]
    rw [dictFind_dictInsert]
    by_cases h : k = k1 <;> cases hfind : dictFind k t.reverse <;>
      simp [orO, dictFind, h, hfind]

theorem refreshGo_ok (env : PluginEnv) :
    ∀ (l : List Nat) (files : List (String × String)) (sources : List Nat)
      (F : List (String × String)) (S : List Nat),
      refreshGo env l files sources = .ok (F, S) →
      (∀ e ∈ l, ∃ ef es, env.refreshResult e = .ok (ef, es)) ∧
      S = sources ++ l.flatMap (eltSources env) ∧
      (∀ k, dictFind k F =
        orO (dictFind k (l.flatMap (eltFiles env)).reverse) (dictFind k files)) := by
  intro l
  induction l with
  | nil =>
    intro files sources F S h
    simp only [refreshGo, Except.ok.injEq, Prod.mk.injEq] at h
    obtain ⟨rfl, rfl⟩ := h
    refine ⟨by simp, by simp, ?_⟩
    intro k
    simp [dictFind, orO]
  | cons e rest ih =>
    intro files sources F S h
    rcases hre : env.refreshResult e with err | p
    · simp only [refreshGo] at h
      rw [hre] at h
      cases h
    · obtain ⟨ef, es⟩ := p
      simp only [refreshGo] at h
      rw [hre] at h
      dsimp only at h
      obtain ⟨hall, hS, hF⟩ := ih _ _ _ _ h
      have hfe : eltFiles env e = ef := by simp [eltFiles, hre]
      have hse : eltSources env e = es := by simp [eltSources, hre]
      refine ⟨?_, ?_, ?_⟩
      · intro x hx
        rcases List.mem_cons.mp hx with h1 | h1
        · subst h1; exact ⟨ef, es, hre⟩
        · exact hall x h1
      · rw [hS, List.flatMap_cons, hse]
        simp
      · intro k
        rw [hF k, dictFind_dictUpdate]
        rw [List.flatMap_cons, hfe, List.reverse_append, dictFind_append, orO_assoc]

theorem refreshGo_error (env : PluginEnv) :
    ∀ (l : List Nat) (files : List (String × String)) (sources : List Nat),
      (∃ e ∈ l, ∃ err, env.refreshResult e = .error err) →
      ∃ err, refreshGo env l files sources = .error err := by
  intro l
  induction l with
  | nil =>
    intro files sources h
    obtain ⟨e, he, _⟩ := h
    simp at he
  | cons a rest ih =>
    intro files sources h
    rcases hra : env.refreshResult a with err | p
    · refine ⟨err, ?_⟩
      simp only [refreshGo]
      rw [hra]
    · obtain ⟨ef, es⟩ := p
      obtain ⟨e, he, err, herr⟩ := h
      have hmem : e ∈ rest := by
        rcases List.mem_cons.mp he with h1 | h1
        · subst h1
          rw [hra] at herr
          cases herr
        · exact h1
      obtain ⟨err2, h2⟩ := ih (dictUpdate files ef) (sources ++ es) ⟨e, hmem, err, herr⟩
      refine ⟨err2, ?_⟩
      simp only [refreshGo]
      rw [hra]
      exact h2

theorem dictFind_none_iff (k : String) (l : List (String × String)) :
    dictFind k l = none ↔ k ∉ l.map Prod.fst := by
  induction l with
  | nil => simp [dictFind]
  | cons p rest ih =>
    obtain ⟨k1, v⟩ := p
    by_cases h : k = k1
    · subst h; simp [dictFind]
    · simp [dictFind, h, ih]

theorem dictFind_flatMap_none (env : PluginEnv) (k : String) :
    ∀ (l : List Nat), (∀ e ∈ l, dictFind k (eltFiles env e) = none) →
      dictFind k (l.flatMap (eltFiles env)).reverse = none := by
  intro l
  induction l with
  | nil => intro _; simp [dictFind]
  | cons e rest ih =>
    intro hall
    rw [List.flatMap_cons, List.reverse_append, dictFind_append]
    rw [ih (fun x hx => hall x (by simp [hx]))]
    have h0 : dictFind k (eltFiles env e).reverse = none := by
      have h1 := hall e (by simp)
      rw [dictFind_none_iff] at h1 ⊢
      simpa using h1
    rw [h0]
    simp [orO]

theorem inconsistentGo_eq (env : PluginEnv) (st : RState) :
    ∀ (l : List Nat) (acc : List Nat),
      inconsistentGo env st l acc = acc ++ l.flatMap (elemInconsistent env st) := by
  intro l
  induction l with
  | nil => intro acc; simp [inconsistentGo]
  | cons e rest ih =>
    intro acc
    rw [inconsistentGo.eq_def]
    dsimp only
    rw [ih, List.flatMap_cons]
    simp

theorem depsWithSources_eq_flatMap (st : RState) (inc : Bool) (l : List Nat) :
    depsWithSources st inc l = l.flatMap (fun e =>
      (if inc then (sourceIdsOf st e).map Plugin.source else []) ++ [Plugin.element e]) := by
  induction l with
  | nil => simp [depsWithSources]
  | cons e rest ih =>
    rw [List.flatMap_cons, ← ih]
    simp [depsWithSources]

/-- The remote types of the `RemoteType` enumeration. -/
inductive RemoteType where
  | INDEX
  | STORAGE
  | ENDPOINT
  | ALL
deriving DecidableEq, Repr

/-- Embeds `RemoteSpec`: the seven public configuration fields, the provenance node
(kept as its provenance text when present) and the lazily-cached credential
state (`_server_cert`, `_client_key`, `_client_cert`, `_cred_files_loaded`). -/
structure RemoteSpec where
  remote_type : RemoteType
  push : Bool
  url : String
  instance_name : Option String
  server_cert_file : Option String
  client_key_file : Option String
  client_cert_file : Option String
  spec_node : Option String
  server_cert_cache : Option String
  client_key_cache : Option String
  client_cert_cache : Option String
  cred_files_loaded : Bool
deriving DecidableEq, Repr

/-- The tuple of the seven public fields that `RemoteSpec.__hash__` hashes. -/
def specTuple (s : RemoteSpec) :
    RemoteType × Bool × String × Option String × Option String × Option String × Option String :=
  (s.remote_type, s.push, s.url, s.instance_name, s.server_cert_file,
    s.client_key_file, s.client_cert_file)

/-- Embeds `RemoteSpec.__hash__`: the hash of the seven-field tuple; the builtin
tuple hash is an opaque parameter `pyhash`. -/
def remoteSpecHash
    (pyhash : RemoteType × Bool × String × Option String × Option String ×
      Option String × Option String → Int) (s : RemoteSpec) : Int :=
  pyhash (specTuple s)

/-- An arbitrary Python object as `RemoteSpec.__eq__` sees it: only its hash
is ever consulted. -/
structure PyObj where
  objHash : Int
deriving DecidableEq, Repr

/-- Embeds `RemoteSpec.__eq__` against an arbitrary object: `hash(self) == hash(other)`. -/
def remoteSpecEqObj
    (pyhash : RemoteType × Bool × String × Option String × Option String ×
      Option String × Option String → Int) (a : RemoteSpec) (o : PyObj) : Bool :=
  remoteSpecHash pyhash a == o.objHash

/-- Embeds `RemoteSpec.__eq__` between two specs (the hash of a spec is its
seven-field tuple hash). -/
def remoteSpecEq
    (pyhash : RemoteType × Bool × String × Option String × Option String ×
      Option String × Option String → Int) (a b : RemoteSpec) : Bool :=
  remoteSpecHash pyhash a == remoteSpecHash pyhash b

/-- The result of `urlparse` on the spec URL, supplied externally. -/
structure ParsedUrl where
  scheme : String
  hostname : String
  port : Option Nat
deriving DecidableEq, Repr

/-- A gRPC channel as produced by `open_channel`. -/
inductive Channel where
  | insecure (target : String)
  | secure (target : String)
deriving DecidableEq, Repr

/-- Python falsiness of `url.port` (absent or zero). -/
def portFalsy : Option Nat → Bool
  | none => true
  | some p => p == 0

/-- Python `url.port or dflt`. -/
def portOr (u : Option Nat) (dflt : Nat) : Nat :=
  match u with
  | none => dflt
  | some p => if p == 0 then dflt else p

/-- The provenance prefix attached to error messages when the spec carries a
provenance node. -/
def provMsg (spec : RemoteSpec) (msg : String) : String :=
  match spec.spec_node with
  | some pv => pv ++ ": " ++ msg
  | none => msg

def portErrText : String :=
  "Remote execution endpoints must specify the port number, for example: http://buildservice:50051."

/-- Embeds `RemoteSpec.open_channel` after `urlparse`: a remote-execution endpoint
without an explicit port is a `RemoteError` carrying the provenance; then the
scheme selects a plaintext or an encrypted channel, and any other scheme is
an error. -/
def open_channel (spec : RemoteSpec) (u : ParsedUrl) : Except String Channel :=
  if spec.remote_type = RemoteType.ENDPOINT ∧ portFalsy u.port = true then
    .error (provMsg spec portErrText)
  else if u.scheme = "http" then
    .ok (.insecure (u.hostname ++ ":" ++ toString (portOr u.port 80)))
  else if u.scheme = "https" then
    .ok (.secure (u.hostname ++ ":" ++ toString (portOr u.port 443)))
  else
    .error (provMsg spec
      ("Only http and https protocols are supported, but " ++ u.scheme ++ " was supplied."))

/-
Concrete fixtures used by the witnesses and the counterexample below.
-/

def fAll : Factories := ⟨fun _ => true, fun _ => true⟩

def diamondC : MetaElement := .mk 2 "c" [] [] []
def diamondA : MetaElement := .mk 1 "a" [diamondC] [] []
def diamondB : MetaElement := .mk 3 "b" [diamondC] [] []
def diamondT : MetaElement := .mk 0 "t" [diamondA, diamondB] [] []

def diamondSt : RState :=
  ⟨[(3, 3), (2, 2), (1, 1), (0, 0)],
   [(0, ⟨"t", [1, 3], [], []⟩), (1, ⟨"a", [2], [], []⟩),
    (2, ⟨"c", [], [], []⟩), (3, ⟨"b", [2], [], []⟩)],
   4, [], 0,
   [.createElement 0 "t", .createElement 1 "a", .createElement 2 "c",
    .appendRuntime 1 2, .appendRuntime 0 1, .createElement 3 "b",
    .appendRuntime 3 2, .appendRuntime 0 3]⟩

def ceR : MetaElement := .mk 1 "r" [] [] []
def ceB : MetaElement := .mk 2 "b" [] [] []
def ceT : MetaElement := .mk 0 "t" [ceR] [ceB] []

def ceSt : RState :=
  ⟨[(2, 2), (1, 1), (0, 0)],
   [(0, ⟨"t", [1], [2], []⟩), (1, ⟨"r", [], [], []⟩), (2, ⟨"b", [], [], []⟩)],
   3, [], 0,
   [.createElement 0 "t", .createElement 1 "r", .appendRuntime 0 1,
    .createElement 2 "b", .appendBuild 0 2]⟩

def wA : MetaElement := .mk 1 "a" [] [] []
def wB : MetaElement := .mk 2 "b" [] [] []
def wSrc1 : MetaSource := .mk 10 "git" "cfg"
def wSrc2 : MetaSource := .mk 11 "git" "cfg"
def wOrder : MetaElement := .mk 0 "t" [wB, wA] [wA, wB] [wSrc1, wSrc2]

def wOrderSt : RState :=
  ⟨[(1, 2), (2, 1), (0, 0)],
   [(0, ⟨"t", [1, 2], [2, 1], [0, 1]⟩), (1, ⟨"b", [], [], []⟩), (2, ⟨"a", [], [], []⟩)],
   3,
   [(0, ⟨"git", "cfg", 10⟩), (1, ⟨"git", "cfg", 11⟩)],
   2,
   [.createElement 0 "t", .createElement 2 "b", .appendRuntime 0 1,
    .createElement 1 "a", .appendRuntime 0 2, .appendBuild 0 2, .appendBuild 0 1,
    .createSource 10 "git", .appendSource 0 0, .createSource 11 "git", .appendSource 0 1]⟩

def chB : MetaElement := .mk 2 "b" [] [] []
def chA : MetaElement := .mk 1 "a" [chB] [] [.mk 20 "git" "cfgA"]
def chT : MetaElement := .mk 0 "t" [chA] [] []

def chSt : RState :=
  ⟨[(2, 2), (1, 1), (0, 0)],
   [(0, ⟨"t", [1], [], []⟩), (1, ⟨"a", [2], [], [0]⟩), (2, ⟨"b", [], [], []⟩)],
   3,
   [(0, ⟨"git", "cfgA", 20⟩)],
   1,
   [.createElement 0 "t", .createElement 1 "a", .createElement 2 "b",
    .appendRuntime 1 2, .createSource 20 "git", .appendSource 1 0, .appendRuntime 0 1]⟩

def envAll : PluginEnv :=
  ⟨fun _ => true,
   fun e => if e = 0 then .ok ([("f", "v0"), ("g", "w")], [5])
            else if e = 1 then .ok ([("f", "v1")], [6])
            else .ok ([], []),
   fun s => s = 0⟩

def envBad : PluginEnv :=
  ⟨fun q => q != .source 0,
   fun e => if e = 1 then .error "net" else .ok ([], []),
   fun _ => false⟩

/-- Whether every build-dependency append for element `eid` precedes every
runtime-dependency append for `eid` in a trace. -/
def isAppendRuntimeFor (eid : Nat) : Event → Bool
  | .appendRuntime p _ => p == eid
  | _ => false

def isAppendBuildFor (eid : Nat) : Event → Bool
  | .appendBuild p _ => p == eid
  | _ => false

def buildAppendsFirst (eid : Nat) (evs : List Event) : Bool :=
  (evs.dropWhile (fun ev => !(isAppendRuntimeFor eid ev))).all
    (fun ev => !(isAppendBuildFor eid ev))

theorem isAppendBuildFor_eq_false {r : Nat} {ev : Event}
    (h : ∀ c, ev ≠ Event.appendBuild r c) : isAppendBuildFor r ev = false := by
  cases ev <;> simp [isAppendBuildFor]
  case appendBuild p c =>
    intro hc
    subst hc
    exact h c rfl

theorem isAppendRuntimeFor_eq_false {r : Nat} {ev : Event}
    (h : ∀ c, ev ≠ Event.appendRuntime r c) : isAppendRuntimeFor r ev = false := by
  cases ev <;> simp [isAppendRuntimeFor]
  case appendRuntime p c =>
    intro hc
    subst hc
    exact h c rfl

/-- C1: for every description node reachable from the target,
`resolve_element` builds exactly one element: resolving the same node again
returns the identical element and leaves the state untouched, the element
factory has been invoked exactly once per distinct node identity (this holds
for arbitrary node values, which is exactly what the memo insertion before
the recursive descent guarantees), and the node is memoized to the returned
element. -/
theorem claim_C1_resolution_memoized (f : Factories) (me : MetaElement) (r : Nat) (st' : RState)
    (h : resolve_element f initState me = .ok (r, st')) :
    resolve_element f st' me = .ok (r, st') ∧
    (createdNids st').Nodup ∧
    me.nid ∈ createdNids st' ∧
    (createdNids st').count me.nid = 1 ∧
    assocFind me.nid st'.memo = some r := by
  have M := resolve_element_master f initState me r st' h StInv_init
  have hmemo : assocFind me.nid st'.memo = some r := M.memoAfter
  have hNodup : (createdNids st').Nodup := by
    unfold createdNids
    rw [M.inv.evMemo, List.nodup_reverse]
    exact M.inv.memoNodup
  have hmem : me.nid ∈ createdNids st' := by
    unfold createdNids
    rw [M.inv.evMemo, List.mem_reverse]
    exact List.mem_map.mpr ⟨(me.nid, r), assocFind_mem hmemo, rfl⟩
  refine ⟨?_, hNodup, hmem, List.count_eq_one_of_mem hNodup hmem, hmemo⟩
  obtain ⟨n, kind, deps, bdeps, srcs⟩ := me
  simp only [MetaElement.nid] at hmemo
  simp [resolve_element, hmemo]

/-- C1 witness: the diamond graph — the target's two runtime dependencies
share the node `diamondC`; resolving the target creates each node once and a
second resolution returns the identical element. -/
theorem claim_C1_witness :
    resolve_element fAll diamondSt diamondT = .ok (0, diamondSt) ∧
    (createdNids diamondSt).Nodup ∧
    diamondT.nid ∈ createdNids diamondSt ∧
    (createdNids diamondSt).count diamondT.nid = 1 ∧
    assocFind diamondT.nid diamondSt.memo = some 0 :=
  claim_C1_resolution_memoized fAll diamondT 0 diamondSt (by decide)

/-- C3 counterexample: the claim says build dependencies are processed
before runtime dependencies, but resolving a fresh target with one runtime
dependency (`ceR`, node 1) and one build dependency (`ceB`, node 2), the
factory creates the runtime dependency first and the runtime append precedes
the build append in the trace. -/
theorem claim_C3_counterexample :
    resolve_element fAll initState ceT = .ok (0, ceSt) ∧
    ceSt.events = [.createElement 0 "t", .createElement 1 "r", .appendRuntime 0 1,
      .createElement 2 "b", .appendBuild 0 2] ∧
    buildAppendsFirst 0 ceSt.events = false ∧
    (createdNids ceSt).indexOf 1 < (createdNids ceSt).indexOf 2 := by
  refine ⟨by decide, by decide, by decide, by decide⟩

/-- C3 (amended): when `resolve_element` processes a not-yet-memoized node
it resolves and appends every entry of the node's runtime-dependency list
before any entry of the build-dependency list — the trace splits into a
prefix free of build appends and a suffix free of runtime appends for the
fresh element. -/
theorem claim_C3_runtime_deps_first (f : Factories) (st : RState) (me : MetaElement)
    (r : Nat) (st' : RState) (h : resolve_element f st me = .ok (r, st')) (inv : StInv st)
    (hfresh : assocFind me.nid st.memo = none) :
    r = st.nextElem ∧
    ∃ pre post, st'.events = pre ++ post ∧
      (∀ ev ∈ pre, isAppendBuildFor r ev = false) ∧
      (∀ ev ∈ post, isAppendRuntimeFor r ev = false) := by
  have M := resolve_element_master f st me r st' h inv
  obtain ⟨hr, _, pre, post, hsplit, hpre, hpost⟩ := M.freshCase hfresh
  refine ⟨hr, pre, post, hsplit, ?_, ?_⟩
  · intro ev hev
    exact isAppendBuildFor_eq_false (hpre ev hev)
  · intro ev hev
    exact isAppendRuntimeFor_eq_false (hpost ev hev)

/-- C3 witness: the amended theorem applied to the counterexample graph. -/
theorem claim_C3_witness :
    (resolve_element fAll initState ceT = .ok (0, ceSt) ∧ StInv initState ∧
      assocFind ceT.nid initState.memo = none) ∧
    (0 = initState.nextElem ∧
      ∃ pre post, ceSt.events = pre ++ post ∧
        (∀ ev ∈ pre, isAppendBuildFor 0 ev = false) ∧
        (∀ ev ∈ post, isAppendRuntimeFor 0 ev = false)) :=
  ⟨⟨by decide, StInv_init, by decide⟩,
    claim_C3_runtime_deps_first fAll initState ceT 0 ceSt (by decide) StInv_init (by decide)⟩

/-- C4: the element resolved for a description node mirrors the node: its
kind is the node's kind, its runtime- and build-dependency lists are the
memoized resolutions of the node's lists in declaration order (hence of
equal length), and its source list corresponds one-to-one and in order to
the node's source descriptions. -/
theorem claim_C4_order_preservation (f : Factories) (st : RState) (me : MetaElement)
    (r : Nat) (st' : RState) (h : resolve_element f st me = .ok (r, st')) (inv : StInv st)
    (hfresh : assocFind me.nid st.memo = none) :
    ∃ d, assocFind r st'.elems = some d ∧
      d.kind = me.kind ∧
      d.runtime_dependencies = me.dependencies.map (memoId st') ∧
      d.build_dependencies = me.build_dependencies.map (memoId st') ∧
      d.runtime_dependencies.length = me.dependencies.length ∧
      d.build_dependencies.length = me.build_dependencies.length ∧
      d.sources.length = me.sources.length ∧
      List.Forall₂ (fun sid ms => assocFind sid st'.srcs = some (srcDataOf ms))
        d.sources me.sources := by
  have M := resolve_element_master f st me r st' h inv
  obtain ⟨_, ⟨d, hd, hk, hrt, hbd, _, _, hfa, _⟩, _⟩ := M.freshCase hfresh
  exact ⟨d, hd, hk, hrt, hbd, by rw [hrt]; simp, by rw [hbd]; simp,
    hfa.length_eq, hfa⟩

/-- C4 witness: a target with runtime order `[B, A]`, build order `[A, B]`
and two configuration-identical sources; the resolved lists mirror both
orders and both sources. -/
theorem claim_C4_witness :
    (resolve_element fAll initState wOrder = .ok (0, wOrderSt) ∧ StInv initState ∧
      assocFind wOrder.nid initState.memo = none) ∧
    (∃ d, assocFind 0 wOrderSt.elems = some d ∧
      d.kind = wOrder.kind ∧
      d.runtime_dependencies = wOrder.dependencies.map (memoId wOrderSt) ∧
      d.build_dependencies = wOrder.build_dependencies.map (memoId wOrderSt) ∧
      d.runtime_dependencies.length = wOrder.dependencies.length ∧
      d.build_dependencies.length = wOrder.build_dependencies.length ∧
      d.sources.length = wOrder.sources.length ∧
      List.Forall₂ (fun sid ms => assocFind sid wOrderSt.srcs = some (srcDataOf ms))
        d.sources wOrder.sources) :=
  ⟨⟨by decide, StInv_init, by decide⟩,
    claim_C4_order_preservation fAll initState wOrder 0 wOrderSt (by decide) StInv_init
      (by decide)⟩

/-- C2: pipeline construction resolves the entire graph and only then calls
`preflight()` on the ALL-scope closure of the target including sources: on
success the preflight call list enumerates each distinct element and source
exactly once (no duplicates) and every call succeeded; if any plugin of the
closure fails preflight, construction propagates the failure and no
`Pipeline` object is produced. -/
theorem claim_C2_preflight_once_and_failfast (f : Factories) (env : PluginEnv)
    (me : MetaElement) :
    (∀ p, pipelineInit f env me = .ok p →
      resolve_element f initState me = .ok (p.target, p.st) ∧
      (depsWithSources p.st true (elemTraversal p.st Scope.ALL p.target)).Nodup ∧
      ∀ q ∈ depsWithSources p.st true (elemTraversal p.st Scope.ALL p.target),
        env.preflightOk q = true) ∧
    (∀ tid st, resolve_element f initState me = .ok (tid, st) →
      (∃ q ∈ depsWithSources st true (elemTraversal st Scope.ALL tid),
        env.preflightOk q = false) →
      ∃ e, pipelineInit f env me = .error e) := by
  constructor
  · intro p hp
    rcases hres : resolve_element f initState me with e | q
    · simp only [pipelineInit, hres] at hp
      exact Except.noConfusion hp
    · obtain ⟨tid, st⟩ := q
      simp only [pipelineInit, hres] at hp
      rcases hpf : preflightAll env (depsWithSources st true (elemTraversal st .ALL tid))
        with e | u
      · rw [hpf] at hp
        cases hp
      · rw [hpf] at hp
        have hpeq : (⟨st, tid⟩ : Pipeline) = p := by injection hp
        subst hpeq
        have M := resolve_element_master f initState me tid st hres StInv_init
        dsimp only
        refine ⟨rfl, ?_, ?_⟩
        · exact depsWithSources_nodup M.inv (elemTraversal_nodup st .ALL tid) true
        · obtain ⟨⟩ := u
          exact (preflightAll_ok_iff env _).mp hpf
  · intro tid st hres hbad
    obtain ⟨q, hq, hqbad⟩ := hbad
    rcases hpf : preflightAll env (depsWithSources st true (elemTraversal st .ALL tid))
      with e | u
    · refine ⟨e, ?_⟩
      simp only [pipelineInit, hres]
      rw [hpf]
    · exfalso
      obtain ⟨⟩ := u
      have h0 := (preflightAll_ok_iff env _).mp hpf q hq
      rw [hqbad] at h0
      cases h0

/-- C2 witness: the three-element chain with one source preflights each of
its four plugins once when all preflights succeed, and a failing preflight
on the source makes construction fail. -/
theorem claim_C2_witness :
    (resolve_element fAll initState chT =
        .ok ((⟨chSt, 0⟩ : Pipeline).target, (⟨chSt, 0⟩ : Pipeline).st) ∧
      (depsWithSources chSt true (elemTraversal chSt Scope.ALL 0)).Nodup ∧
      ∀ q ∈ depsWithSources chSt true (elemTraversal chSt Scope.ALL 0),
        envAll.preflightOk q = true) ∧
    (∃ e, pipelineInit fAll envBad chT = .error e) :=
  ⟨(claim_C2_preflight_once_and_failfast fAll envAll chT).1 ⟨chSt, 0⟩ (by decide),
   (claim_C2_preflight_once_and_failfast fAll envBad chT).2 0 chSt (by decide)
     ⟨Plugin.source 0, by decide, by decide⟩⟩

/-- C6: `resolve_source` is never memoized — every successful call returns
the freshly allocated instance `st.nextSrc` (not a key of the existing
store), a second call on the same description object yields a distinct
instance, every entry of a source list yields a distinct fresh instance even
for configuration-identical descriptions, and a factory failure propagates
as an error both directly and through the source loop. -/
theorem claim_C6_sources_never_memoized (f : Factories) (st : RState) (ms : MetaSource) :
    (f.sourceOk ms.kind = true →
      ∃ st1, resolve_source f st ms = .ok (st.nextSrc, st1) ∧
        st1.nextSrc = st.nextSrc + 1 ∧
        (StInv st → assocFind st.nextSrc st1.srcs = some (srcDataOf ms)) ∧
        ∀ sid2 st2, resolve_source f st1 ms = .ok (sid2, st2) → sid2 ≠ st.nextSrc) ∧
    (f.sourceOk ms.kind = false →
      (∃ e, resolve_source f st ms = .error e) ∧
      ∀ eid rest, ∃ e, resolve_src_list f st eid (ms :: rest) = .error e) ∧
    (StInv st → st.nextSrc ∉ st.srcs.map Prod.fst) ∧
    (∀ eid l st', resolve_src_list f st eid l = .ok st' → StInv st → eid < st.nextElem →
      ∀ d0, assocFind eid st.elems = some d0 →
        ∃ ids, assocFind eid st'.elems = some { d0 with sources := d0.sources ++ ids } ∧
          ids.Nodup ∧ ids.length = l.length ∧
          ∀ s ∈ ids, s ∉ st.srcs.map Prod.fst) := by
  obtain ⟨s, k, c⟩ := ms
  refine ⟨?_, ?_, ?_, ?_⟩
  · intro hok
    simp only [MetaSource.kind] at hok
    have hre : resolve_source f st (MetaSource.mk s k c) = .ok (st.nextSrc,
        { st with
          srcs := st.srcs ++ [(st.nextSrc, ⟨k, c, s⟩)]
          nextSrc := st.nextSrc + 1
          events := st.events ++ [.createSource s k] }) := by
      simp [resolve_source, hok]
    refine ⟨_, hre, rfl, ?_, ?_⟩
    · intro inv
      have h0 : assocFind st.nextSrc st.srcs = none := by
        rw [assocFind_none_iff, inv.srcKeys, List.mem_range]
        omega
      exact assocFind_self_append _ h0
    · intro sid2 st2 h2
      simp only [resolve_source, hok, if_true, Except.ok.injEq, Prod.mk.injEq] at h2
      obtain ⟨h3, _⟩ := h2
      omega
  · intro hbad
    simp only [MetaSource.kind] at hbad
    constructor
    · exact ⟨"PluginError: source kind " ++ k, by simp [resolve_source, hbad]⟩
    · intro eid rest
      exact ⟨"PluginError: source kind " ++ k, by simp [resolve_src_list, resolve_source, hbad]⟩
  · intro inv
    rw [inv.srcKeys, List.mem_range]
    omega
  · intro eid l st' h inv he d0 h0
    have R := resolve_src_list_master f l st eid st' h inv he
    obtain ⟨ids, hfind, hnd, hbounds, hfa⟩ := R.dataUpd d0 h0
    refine ⟨ids, hfind, hnd, hfa.length_eq, ?_⟩
    intro x hx hmem
    have hb := (hbounds x hx).1
    rw [inv.srcKeys, List.mem_range] at hmem
    omega

def fNoZip : Factories := ⟨fun _ => true, fun k => k != "zip"⟩
def mGit : MetaSource := .mk 30 "git" "cc"
def mZip : MetaSource := .mk 31 "zip" "cc"

/-- C6 witness: a fresh source is created for the `git` description and a
second call creates another, while the `zip` factory failure propagates. -/
theorem claim_C6_witness :
    (∃ st1, resolve_source fNoZip initState mGit = .ok (initState.nextSrc, st1) ∧
      st1.nextSrc = initState.nextSrc + 1 ∧
      (StInv initState → assocFind initState.nextSrc st1.srcs = some (srcDataOf mGit)) ∧
      ∀ sid2 st2, resolve_source fNoZip st1 mGit = .ok (sid2, st2) →
        sid2 ≠ initState.nextSrc) ∧
    ((∃ e, resolve_source fNoZip initState mZip = .error e) ∧
      ∀ eid rest, ∃ e, resolve_src_list fNoZip initState eid (mZip :: rest) = .error e) :=
  ⟨(claim_C6_sources_never_memoized fNoZip initState mGit).1 (by decide),
   (claim_C6_sources_never_memoized fNoZip initState mZip).2.1 (by decide)⟩

theorem orO_none (a : Option String) : orO a none = a := by
  cases a <;> simp [orO]

/-- C5: `refresh()` walks the ALL-scope closure calling each element's
`_refresh`, returns the changed sources concatenated in traversal order, and
merges the per-element file mappings with last-writer-wins: a file's merged
entry is the one found scanning the per-element proposals from the end, so
the element later in traversal order wins.  Files no element proposed are
absent from the merged mapping (hence never written), and if any element's
`_refresh` raises, the whole call returns the error, so no file at all is
written (only the mapping of a successful call is committed to disk). -/
theorem claim_C5_refresh_aggregation (env : PluginEnv) (p : Pipeline) :
    (∀ F S, pipelineRefresh env p = .ok (F, S) →
      (∀ e ∈ elemTraversal p.st Scope.ALL p.target,
        ∃ ef es, env.refreshResult e = .ok (ef, es)) ∧
      S = (elemTraversal p.st Scope.ALL p.target).flatMap (eltSources env) ∧
      (∀ k, dictFind k F =
        dictFind k ((elemTraversal p.st Scope.ALL p.target).flatMap (eltFiles env)).reverse) ∧
      (∀ k, (∀ e ∈ elemTraversal p.st Scope.ALL p.target,
          dictFind k (eltFiles env e) = none) → dictFind k F = none)) ∧
    ((∃ e ∈ elemTraversal p.st Scope.ALL p.target, ∃ err, env.refreshResult e = .error err) →
      ∃ err, pipelineRefresh env p = .error err) := by
  constructor
  · intro F S h
    obtain ⟨hall, hS, hF⟩ := refreshGo_ok env _ [] [] F S h
    have hFk : ∀ k, dictFind k F =
        dictFind k ((elemTraversal p.st Scope.ALL p.target).flatMap (eltFiles env)).reverse := by
      intro k
      rw [hF k]
      rw [show dictFind k ([] : List (String × String)) = none from rfl, orO_none]
    refine ⟨hall, by simpa using hS, hFk, ?_⟩
    intro k hk
    rw [hFk k]
    exact dictFind_flatMap_none env k _ hk
  · intro h
    exact refreshGo_error env _ [] [] h

/-- C5 witness: in the three-element chain, elements 1 and 0 both propose
file `f`; element 0 is later in traversal order `[2, 1, 0]` and wins, the
changed sources concatenate in traversal order, and a failing `_refresh`
makes the whole call fail. -/
theorem claim_C5_witness :
    ((∀ e ∈ elemTraversal chSt Scope.ALL 0, ∃ ef es, envAll.refreshResult e = .ok (ef, es)) ∧
      ([6, 5] : List Nat) = (elemTraversal chSt Scope.ALL 0).flatMap (eltSources envAll) ∧
      (∀ k, dictFind k [("f", "v0"), ("g", "w")] =
        dictFind k ((elemTraversal chSt Scope.ALL 0).flatMap (eltFiles envAll)).reverse) ∧
      (∀ k, (∀ e ∈ elemTraversal chSt Scope.ALL 0,
          dictFind k (eltFiles envAll e) = none) →
        dictFind k [("f", "v0"), ("g", "w")] = none)) ∧
    (∃ err, pipelineRefresh envBad ⟨chSt, 0⟩ = .error err) :=
  ⟨(claim_C5_refresh_aggregation envAll ⟨chSt, 0⟩).1 [("f", "v0"), ("g", "w")] [6, 5]
      (by decide),
   (claim_C5_refresh_aggregation envBad ⟨chSt, 0⟩).2 ⟨1, by decide, "net", by decide⟩⟩

/-- C7: for every scope, `Pipeline.dependencies(scope, include_sources=True)`
yields, for each element of the closure, all of that element's sources
immediately before the element itself in declaration order, and with
`include_sources=False` it yields exactly the elements of the closure in the
same order. -/
theorem claim_C7_sources_before_element (p : Pipeline) (scope : Scope) :
    pipelineDependencies p scope true =
      (elemTraversal p.st scope p.target).flatMap (fun e =>
        (sourceIdsOf p.st e).map Plugin.source ++ [Plugin.element e]) ∧
    pipelineDependencies p scope false =
      (elemTraversal p.st scope p.target).map Plugin.element := by
  constructor
  · rw [pipelineDependencies, depsWithSources_eq_flatMap]
    simp
  · rw [pipelineDependencies, depsWithSources_eq_flatMap]
    simp only [Bool.false_eq_true, if_false, List.nil_append]
    generalize elemTraversal p.st scope p.target = l
    induction l with
    | nil => simp
    | cons e rest ih => simp [ih]

/-- C8: `Pipeline.inconsistent()` is exactly the concatenation, in ALL-scope
traversal order, of each element's own inconsistent direct sources; in
particular with three elements of which only the middle one has a single
inconsistent source, the result is exactly that one source. -/
theorem claim_C8_inconsistent_concatenation (env : PluginEnv) (p : Pipeline) :
    pipelineInconsistent env p =
      (elemTraversal p.st Scope.ALL p.target).flatMap (elemInconsistent env p.st) ∧
    (∀ a b c s, elemTraversal p.st Scope.ALL p.target = [a, b, c] →
      elemInconsistent env p.st a = [] → elemInconsistent env p.st b = [s] →
      elemInconsistent env p.st c = [] →
      pipelineInconsistent env p = [s]) := by
  have hmain : pipelineInconsistent env p =
      (elemTraversal p.st Scope.ALL p.target).flatMap (elemInconsistent env p.st) := by
    unfold pipelineInconsistent
    rw [inconsistentGo_eq]
    simp
  refine ⟨hmain, ?_⟩
  intro a b c s htrav ha hb hc
  rw [hmain, htrav]
  simp [ha, hb, hc]

/-- C8 witness: in the three-element chain with traversal `[2, 1, 0]`, only
the middle element 1 has the single inconsistent source 0, and
`inconsistent()` returns exactly `[0]`. -/
theorem claim_C8_witness :
    pipelineInconsistent envAll ⟨chSt, 0⟩ = [0] :=
  (claim_C8_inconsistent_concatenation envAll ⟨chSt, 0⟩).2 2 1 0 0 (by decide) (by decide)
    (by decide) (by decide)

/-- C9: a remote-execution endpoint spec whose URL has the encrypted
transport scheme but no explicit port makes `open_channel` raise a
`RemoteError` carrying the configuration provenance when a spec node is
present, and no channel is opened. -/
theorem claim_C9_endpoint_https_no_port (spec : RemoteSpec) (u : ParsedUrl)
    (hE : spec.remote_type = RemoteType.ENDPOINT) (hsch : u.scheme = "https")
    (hp : u.port = none) :
    open_channel spec u = .error (provMsg spec portErrText) ∧
    (∀ pv, spec.spec_node = some pv →
      open_channel spec u = .error (pv ++ ": " ++ portErrText)) ∧
    ∀ ch, open_channel spec u ≠ .ok ch := by
  have hcond : spec.remote_type = RemoteType.ENDPOINT ∧ portFalsy u.port = true :=
    ⟨hE, by rw [hp]; rfl⟩
  have h0 : open_channel spec u = .error (provMsg spec portErrText) := by
    unfold open_channel
    rw [if_pos hcond]
  refine ⟨h0, ?_, ?_⟩
  · intro pv hpv
    rw [h0]
    simp [provMsg, hpv]
  · intro ch hch
    rw [h0] at hch
    cases hch

def reSpec : RemoteSpec :=
  ⟨.ENDPOINT, false, "https://cas.example.com", none, none, none, none,
   some "cfg.yaml [line 3 column 2]", none, none, none, false⟩

def reUrl : ParsedUrl := ⟨"https", "cas.example.com", none⟩

/-- C9 witness: a concrete endpoint spec with provenance and an https URL
without port. -/
theorem claim_C9_witness :
    open_channel reSpec reUrl = .error (provMsg reSpec portErrText) ∧
    (∀ pv, reSpec.spec_node = some pv →
      open_channel reSpec reUrl = .error (pv ++ ": " ++ portErrText)) ∧
    ∀ ch, open_channel reSpec reUrl ≠ .ok ch :=
  claim_C9_endpoint_https_no_port reSpec reUrl (by decide) (by decide) (by decide)

/-- C10: `RemoteSpec` equality is decided solely by the hash of the tuple of
the seven public configuration fields: specs agreeing on those fields are
equal no matter how the provenance node or cached credential state differ,
and `__eq__` holds for an arbitrary object exactly when its hash equals the
spec tuple's hash. -/
theorem claim_C10_eq_by_hash
    (pyhash : RemoteType × Bool × String × Option String × Option String ×
      Option String × Option String → Int) (a b : RemoteSpec) (o : PyObj) :
    (specTuple a = specTuple b → remoteSpecEq pyhash a b = true) ∧
    (remoteSpecEq pyhash a b = true ↔ remoteSpecHash pyhash a = remoteSpecHash pyhash b) ∧
    (remoteSpecEqObj pyhash a o = true ↔ o.objHash = remoteSpecHash pyhash a) := by
  refine ⟨?_, ?_, ?_⟩
  · intro h
    simp [remoteSpecEq, remoteSpecHash, h]
  · simp [remoteSpecEq]
  · simp [remoteSpecEqObj]
    exact eq_comm

def specA : RemoteSpec :=
  ⟨.STORAGE, true, "https://cache.example.com:443", some "main", some "server.crt",
   none, none, none, none, none, none, false⟩

def specB : RemoteSpec :=
  ⟨.STORAGE, true, "https://cache.example.com:443", some "main", some "server.crt",
   none, none, some "cfg.yaml [line 9 column 4]", some "CERTBYTES", none, none, true⟩

def hashSeven : RemoteType × Bool × String × Option String × Option String ×
    Option String × Option String → Int := fun _ => 7

/-- C10 witness: two specs agreeing on the seven public fields but differing
in provenance and cached credentials compare equal, and an arbitrary object
with the matching hash compares equal. -/
theorem claim_C10_witness :
    specTuple specA = specTuple specB ∧
    remoteSpecEq hashSeven specA specB = true ∧
    (remoteSpecEqObj hashSeven specA ⟨7⟩ = true ↔ (7 : Int) = remoteSpecHash hashSeven specA) :=
  ⟨rfl, (claim_C10_eq_by_hash hashSeven specA specB ⟨7⟩).1 rfl,
   (claim_C10_eq_by_hash hashSeven specA specB ⟨7⟩).2.2⟩
